import Mathlib

/-!
Verification of the Camino platformvm layered state diff and transaction
builder.  The definitions below are a shallow embedding of the Go sources:
the `state` diff (`NewCaminoDiff`, the diff getters and setters,
`GetNextToUnlockDepositIDsAndTime`, `LockedUTXOs`, `ApplyCaminoState`),
the `builder` (`NewClaimTx`, `NewRewardsImportTx`) and the
`GetAllDepositOffers` API filter.  Identifiers (`ids.ID`, `ids.ShortID`)
are modelled as `Nat`, `time.Time` as `Nat` seconds with `maxTime` playing
the role of `mockable.MaxTime`, and Go maps as association lists whose
iteration order is the list order (theorems quantify over all orders).
-/

namespace Camino

/-- Error values surfaced by the diff and the builder
(`database.ErrNotFound`, `ErrMissingParentState`, `errKeyMissing`,
`errWrongLockMode`, `errNoUTXOsForImport`, plus a catch-all for errors
forwarded from collaborators). -/
inductive Err where
  | notFound : Err
  | missingParentState (id : Nat) : Err
  | keyMissing : Err
  | wrongLockMode : Err
  | noUTXOsForImport : Err
  | other (code : Nat) : Err
deriving DecidableEq

/-- Stand-in for `mockable.MaxTime`: strictly larger than any representable
deposit end time. -/
def maxTime : Nat := 2 ^ 64

/-- Go map lookup on an association list (first binding wins; the setters
below keep keys unique, matching Go map semantics). -/
def findKey {K V : Type} [DecidableEq K] (k : K) : List (K × V) → Option V
  | [] => none
  | q :: rest => if q.1 = k then some q.2 else findKey k rest

/-- Go map assignment: replace any existing binding of `k`. -/
def setKey {K V : Type} [DecidableEq K] (k : K) (v : V) (l : List (K × V)) :
    List (K × V) :=
  (k, v) :: l.filter (fun q => decide (q.1 ≠ k))

/-- A deposit offer (`deposit.Offer`): only the fields the claims touch. -/
structure Offer where
  id : Nat
  flags : Nat
deriving DecidableEq

/-- `deposit.OfferFlagLocked`. -/
def OfferFlagLocked : Nat := 1

/-- A deposit (`deposit.Deposit`); `EndTime() = Start + Duration`. -/
structure Deposit where
  start : Nat
  duration : Nat
deriving DecidableEq

/-- `deposit.Deposit.EndTime`. -/
def Deposit.endTime (d : Deposit) : Nat := d.start + d.duration

/-- The diff's per-deposit modification record (`depositDiff`): the deposit
plus the `added` / `removed` flags (`AddDeposit` sets `added`,
`RemoveDeposit` sets `removed`, `ModifyDeposit` sets neither). -/
structure DepositDiff where
  deposit : Deposit
  added : Bool
  removed : Bool
deriving DecidableEq

/-- A multisig alias (`multisig.Alias`), keyed by its `id`. -/
structure Alias where
  id : Nat
deriving DecidableEq

/-- An owner structure (`secp256k1fx.OutputOwners`). -/
structure Owner where
  locktime : Nat
  threshold : Nat
  addrs : List Nat
deriving DecidableEq

/-- A claimable reward record (`state.Claimable`). -/
structure Claimable where
  owner : Owner
  validatorReward : Nat
  depositReward : Nat
deriving DecidableEq

/-- A deferred validator (`state.Staker`), keyed by `(subnetID, nodeID)`. -/
structure Staker where
  subnetID : Nat
  nodeID : Nat
deriving DecidableEq

/-- One entry of the diff's `deferredStakerDiffs.validatorDiffs`. -/
structure ValidatorDiffEntry where
  validator : Staker
  validatorModified : Bool
  validatorDeleted : Bool
deriving DecidableEq

/-- The two lock ids carried by a locked output (`locked.IDs`); `none`
models `ids.Empty`. -/
structure LockIDs where
  depositTxID : Option Nat
  bondTxID : Option Nat
deriving DecidableEq

/-- `locked.State`. -/
inductive LockState where
  | unlocked
  | deposited
  | bonded
  | depositedBonded
deriving DecidableEq

/-- Decode a `LockIDs` pair into its `LockState` (spec section 3). -/
def LockIDs.state (l : LockIDs) : LockState :=
  match l.depositTxID, l.bondTxID with
  | none, none => .unlocked
  | some _, none => .deposited
  | none, some _ => .bonded
  | some _, some _ => .depositedBonded

/-- Modelled from the spec: `locked.IDs.Match(lockState, txIDs)`
(implementation not under src/) holds when the lock ids decode to
`lockState` and one of the locking tx ids is in the requested set. -/
def LockIDs.match_ (l : LockIDs) (lockState : LockState) (txIDs : List Nat) :
    Bool :=
  decide (l.state = lockState) &&
    ((match l.depositTxID with
      | some t => decide (t ∈ txIDs)
      | none => false) ||
     (match l.bondTxID with
      | some t => decide (t ∈ txIDs)
      | none => false))

/-- A UTXO output: either a plain transfer output or a `locked.Out`. -/
inductive Out where
  | transfer
  | lockedOut (ids : LockIDs)
deriving DecidableEq

/-- A UTXO (`avax.UTXO`); `utxoID` models `InputID()`. -/
structure UTXO where
  utxoID : Nat
  out : Out
deriving DecidableEq

/-- The diff's Camino modification sets (`caminoDiff`).  Values typed
`Option _` model nullable Go pointers: `none` is a tombstone. -/
structure CaminoDiffData where
  modifiedAddressStates : List (Nat × Nat)
  modifiedDepositOffers : List (Nat × Offer)
  modifiedDeposits : List (Nat × DepositDiff)
  modifiedMultisigOwners : List (Nat × Option Alias)
  modifiedShortLinks : List ((Nat × Nat) × Option Nat)
  modifiedClaimables : List (Nat × Option Claimable)
  modifiedNotDistributedValidatorReward : Option Nat
  modifiedUTXOs : List (Nat × Option UTXO)
  deferredStakerDiffs : List ValidatorDiffEntry

/-- A parent state as seen by the diff (the `Chain` interface): abstract
getter functions, plus a concrete deposit registry `deposits` backing the
spec-modelled `GetNextToUnlockDeposit*` answers (the base state
implementation is not under src/). -/
structure ParentState where
  getAddressStates : Nat → Except Err Nat
  getDepositOffer : Nat → Except Err Offer
  getAllDepositOffers : Except Err (List Offer)
  getDeposit : Nat → Except Err Deposit
  getMultisigAlias : Nat → Except Err Alias
  getShortIDLink : Nat × Nat → Except Err Nat
  getClaimable : Nat → Except Err Claimable
  getNotDistributedValidatorReward : Except Err Nat
  lockedUTXOs : List Nat → List Nat → LockState → Except Err (List UTXO)
  deposits : List (Nat × Deposit)

/-- The diff (`state.diff`): parent pointer, the `StateVersions` registry
resolving parent ids to states, and the Camino modification sets. -/
structure Diff where
  parentID : Nat
  stateVersions : Nat → Option ParentState
  caminoDiff : CaminoDiffData

/-! ## Diff setters (src/unnamed/part_002) -/

/-- `diff.SetAddressStates`. -/
def Diff.SetAddressStates (d : Diff) (address : Nat) (states : Nat) : Diff :=
  { d with caminoDiff := { d.caminoDiff with
      modifiedAddressStates := setKey address states d.caminoDiff.modifiedAddressStates } }

/-- `diff.SetDepositOffer` (keyed by the offer's own id). -/
def Diff.SetDepositOffer (d : Diff) (offer : Offer) : Diff :=
  { d with caminoDiff := { d.caminoDiff with
      modifiedDepositOffers := setKey offer.id offer d.caminoDiff.modifiedDepositOffers } }

/-- `diff.AddDeposit`. -/
def Diff.AddDeposit (d : Diff) (depositTxID : Nat) (dep : Deposit) : Diff :=
  { d with caminoDiff := { d.caminoDiff with
      modifiedDeposits := setKey depositTxID ⟨dep, true, false⟩ d.caminoDiff.modifiedDeposits } }

/-- `diff.ModifyDeposit`. -/
def Diff.ModifyDeposit (d : Diff) (depositTxID : Nat) (dep : Deposit) : Diff :=
  { d with caminoDiff := { d.caminoDiff with
      modifiedDeposits := setKey depositTxID ⟨dep, false, false⟩ d.caminoDiff.modifiedDeposits } }

/-- `diff.RemoveDeposit`. -/
def Diff.RemoveDeposit (d : Diff) (depositTxID : Nat) (dep : Deposit) : Diff :=
  { d with caminoDiff := { d.caminoDiff with
      modifiedDeposits := setKey depositTxID ⟨dep, false, true⟩ d.caminoDiff.modifiedDeposits } }

/-- `diff.SetMultisigAlias` (keyed by the alias's own id; the Go setter
dereferences the alias, so it never stores a tombstone). -/
def Diff.SetMultisigAlias (d : Diff) (owner : Alias) : Diff :=
  { d with caminoDiff := { d.caminoDiff with
      modifiedMultisigOwners := setKey owner.id (some owner) d.caminoDiff.modifiedMultisigOwners } }

/-- `diff.SetShortIDLink` (`toShortLinkKey` is modelled by the pair). -/
def Diff.SetShortIDLink (d : Diff) (id : Nat) (key : Nat) (link : Option Nat) :
    Diff :=
  { d with caminoDiff := { d.caminoDiff with
      modifiedShortLinks := setKey (id, key) link d.caminoDiff.modifiedShortLinks } }

/-- `diff.SetClaimable`. -/
def Diff.SetClaimable (d : Diff) (ownerID : Nat) (c : Option Claimable) : Diff :=
  { d with caminoDiff := { d.caminoDiff with
      modifiedClaimables := setKey ownerID c d.caminoDiff.modifiedClaimables } }

/-- `diff.SetNotDistributedValidatorReward`. -/
def Diff.SetNotDistributedValidatorReward (d : Diff) (reward : Nat) : Diff :=
  { d with caminoDiff :=
    { d.caminoDiff with modifiedNotDistributedValidatorReward := some reward } }

/-! ## Diff getters (src/unnamed/part_002) -/

/-- `diff.GetAddressStates`: modified set first, then the resolved parent. -/
def Diff.GetAddressStates (d : Diff) (address : Nat) : Except Err Nat :=
  match findKey address d.caminoDiff.modifiedAddressStates with
  | some states => .ok states
  | none =>
    match d.stateVersions d.parentID with
    | none => .error (.missingParentState d.parentID)
    | some parentState => parentState.getAddressStates address

/-- `diff.GetDepositOffer`. -/
def Diff.GetDepositOffer (d : Diff) (offerID : Nat) : Except Err Offer :=
  match findKey offerID d.caminoDiff.modifiedDepositOffers with
  | some offer => .ok offer
  | none =>
    match d.stateVersions d.parentID with
    | none => .error (.missingParentState d.parentID)
    | some parentState => parentState.getDepositOffer offerID

/-- `diff.GetAllDepositOffers`: the diff's own offers first, then the
parent's offers not shadowed by a modification. -/
def Diff.GetAllDepositOffers (d : Diff) : Except Err (List Offer) :=
  match d.stateVersions d.parentID with
  | none => .error (.missingParentState d.parentID)
  | some parentState =>
    match parentState.getAllDepositOffers with
    | .error e => .error e
    | .ok parentOffers =>
      .ok ((d.caminoDiff.modifiedDepositOffers.map Prod.snd) ++
        parentOffers.filter
          (fun o => decide (findKey o.id d.caminoDiff.modifiedDepositOffers = none)))

/-- `diff.GetDeposit`: a `removed` modification short-circuits to
`NotFound`. -/
def Diff.GetDeposit (d : Diff) (depositTxID : Nat) : Except Err Deposit :=
  match findKey depositTxID d.caminoDiff.modifiedDeposits with
  | some dd => if dd.removed then .error .notFound else .ok dd.deposit
  | none =>
    match d.stateVersions d.parentID with
    | none => .error (.missingParentState d.parentID)
    | some parentState => parentState.getDeposit depositTxID

/-- `diff.GetMultisigAlias`: a stored tombstone short-circuits to
`NotFound`. -/
def Diff.GetMultisigAlias (d : Diff) (alias_ : Nat) : Except Err Alias :=
  match findKey alias_ d.caminoDiff.modifiedMultisigOwners with
  | some (some a) => .ok a
  | some none => .error .notFound
  | none =>
    match d.stateVersions d.parentID with
    | none => .error (.missingParentState d.parentID)
    | some parentState => parentState.getMultisigAlias alias_

/-- `diff.GetShortIDLink`: a stored tombstone short-circuits to
`NotFound`. -/
def Diff.GetShortIDLink (d : Diff) (id : Nat) (key : Nat) : Except Err Nat :=
  match findKey (id, key) d.caminoDiff.modifiedShortLinks with
  | some (some addr) => .ok addr
  | some none => .error .notFound
  | none =>
    match d.stateVersions d.parentID with
    | none => .error (.missingParentState d.parentID)
    | some parentState => parentState.getShortIDLink (id, key)

/-- `diff.GetClaimable`: a stored tombstone short-circuits to `NotFound`. -/
def Diff.GetClaimable (d : Diff) (ownerID : Nat) : Except Err Claimable :=
  match findKey ownerID d.caminoDiff.modifiedClaimables with
  | some (some c) => .ok c
  | some none => .error .notFound
  | none =>
    match d.stateVersions d.parentID with
    | none => .error (.missingParentState d.parentID)
    | some parentState => parentState.getClaimable ownerID

/-- `diff.GetNotDistributedValidatorReward`. -/
def Diff.GetNotDistributedValidatorReward (d : Diff) : Except Err Nat :=
  match d.caminoDiff.modifiedNotDistributedValidatorReward with
  | some reward => .ok reward
  | none =>
    match d.stateVersions d.parentID with
    | none => .error (.missingParentState d.parentID)
    | some parentState => parentState.getNotDistributedValidatorReward

/-! ## Base state and `ApplyCaminoState` (src/unnamed/part_002, 390-438)

The base `State` implementation is not under src/; its setter surface is
modelled from the spec (section 6: the full setter/getter surface the diff
applies onto; section 3 lifecycles: `AddDeposit` creates, `ModifyDeposit`
mutates, `RemoveDeposit` deletes). -/

/-- The observable contents of a base `State`: per-key stores for every
category the diff applies onto. -/
@[ext]
structure BaseState where
  notDistributedValidatorReward : Nat
  addressStates : Nat → Nat
  depositOffers : Nat → Option Offer
  deposits : Nat → Option Deposit
  multisigOwners : Nat → Option Alias
  shortLinks : Nat × Nat → Option Nat
  claimables : Nat → Option Claimable
  deferredValidators : Nat × Nat → Option Staker

/-- Modelled from the spec: base `State.SetNotDistributedValidatorReward`. -/
def BaseState.SetNotDistributedValidatorReward (b : BaseState) (r : Nat) :
    BaseState :=
  { b with notDistributedValidatorReward := r }

/-- Modelled from the spec: base `State.SetAddressStates`. -/
def BaseState.SetAddressStates (b : BaseState) (k v : Nat) : BaseState :=
  { b with addressStates := fun x => if x = k then v else b.addressStates x }

/-- Modelled from the spec: base `State.SetDepositOffer` (keyed by the
offer's id). -/
def BaseState.SetDepositOffer (b : BaseState) (o : Offer) : BaseState :=
  { b with depositOffers := fun x => if x = o.id then some o else b.depositOffers x }

/-- Modelled from the spec: base `State.AddDeposit`. -/
def BaseState.AddDeposit (b : BaseState) (k : Nat) (dep : Deposit) : BaseState :=
  { b with deposits := fun x => if x = k then some dep else b.deposits x }

/-- Modelled from the spec: base `State.ModifyDeposit`. -/
def BaseState.ModifyDeposit (b : BaseState) (k : Nat) (dep : Deposit) : BaseState :=
  { b with deposits := fun x => if x = k then some dep else b.deposits x }

/-- Modelled from the spec: base `State.RemoveDeposit` deletes the entry. -/
def BaseState.RemoveDeposit (b : BaseState) (k : Nat) (_dep : Deposit) : BaseState :=
  { b with deposits := fun x => if x = k then none else b.deposits x }

/-- Modelled from the spec: base `State.SetMultisigAlias` (keyed by the
alias's id). -/
def BaseState.SetMultisigAlias (b : BaseState) (a : Alias) : BaseState :=
  { b with multisigOwners := fun x => if x = a.id then some a else b.multisigOwners x }

/-- Modelled from the spec: base `State.SetShortIDLink` (a `none` link is a
tombstone). -/
def BaseState.SetShortIDLink (b : BaseState) (k : Nat × Nat) (link : Option Nat) :
    BaseState :=
  { b with shortLinks := fun x => if x = k then link else b.shortLinks x }

/-- Modelled from the spec: base `State.SetClaimable` (a `none` claimable is
a tombstone). -/
def BaseState.SetClaimable (b : BaseState) (k : Nat) (c : Option Claimable) :
    BaseState :=
  { b with claimables := fun x => if x = k then c else b.claimables x }

/-- Modelled from the spec: base `State.PutDeferredValidator` (keyed by the
staker's `(subnetID, nodeID)`). -/
def BaseState.PutDeferredValidator (b : BaseState) (s : Staker) : BaseState :=
  { b with deferredValidators := fun x =>
      if x = (s.subnetID, s.nodeID) then some s else b.deferredValidators x }

/-- Modelled from the spec: base `State.DeleteDeferredValidator`. -/
def BaseState.DeleteDeferredValidator (b : BaseState) (s : Staker) : BaseState :=
  { b with deferredValidators := fun x =>
      if x = (s.subnetID, s.nodeID) then none else b.deferredValidators x }

/-- `diff.ApplyCaminoState`: write every pending modification to the base
state, in the source's category order.  A `none` multisig entry is skipped:
the Go code would dereference a nil alias there, and the diff's own setter
can never store one. -/
def Diff.ApplyCaminoState (d : Diff) (b : BaseState) : BaseState :=
  let b := match d.caminoDiff.modifiedNotDistributedValidatorReward with
    | some r => b.SetNotDistributedValidatorReward r
    | none => b
  let b := d.caminoDiff.modifiedAddressStates.foldl
    (fun s q => s.SetAddressStates q.1 q.2) b
  let b := d.caminoDiff.modifiedDepositOffers.foldl
    (fun s q => s.SetDepositOffer q.2) b
  let b := d.caminoDiff.modifiedDeposits.foldl
    (fun s q =>
      if q.2.added then s.AddDeposit q.1 q.2.deposit
      else if q.2.removed then s.RemoveDeposit q.1 q.2.deposit
      else s.ModifyDeposit q.1 q.2.deposit) b
  let b := d.caminoDiff.modifiedMultisigOwners.foldl
    (fun s q => match q.2 with
      | some a => s.SetMultisigAlias a
      | none => s) b
  let b := d.caminoDiff.modifiedShortLinks.foldl
    (fun s q => s.SetShortIDLink q.1 q.2) b
  let b := d.caminoDiff.modifiedClaimables.foldl
    (fun s q => s.SetClaimable q.1 q.2) b
  let b := d.caminoDiff.deferredStakerDiffs.foldl
    (fun s e =>
      if e.validatorModified then
        if e.validatorDeleted then s.DeleteDeferredValidator e.validator
        else s.PutDeferredValidator e.validator
      else s) b
  b

/-! ## Next-to-unlock deposits (src/unnamed/part_002, 186-269) -/

/-- `utils.Sort` on deposit ids. -/
def sortIDs (l : List Nat) : List Nat := List.insertionSort (· ≤ ·) l

/-- Minimum of a list with an initial accumulator. -/
def minList (l : List Nat) (i : Nat) : Nat := l.foldr min i

/-- Modelled from the spec: the base state's
`GetNextToUnlockDepositIDsAndTime` (implementation not under src/) returns
the deposit ids with the minimum end time among the deposits not in
`excluded`, sorted ascending, together with that minimum; the `NotFound`
answer is represented by `([], maxTime)`, matching the
`(nil, mockable.MaxTime, database.ErrNotFound)` triple the Go base state
hands to the diff. -/
def baseNextToUnlock (deps : List (Nat × Deposit)) (excluded : List Nat) :
    List Nat × Nat :=
  let cand := deps.filter (fun q => decide (q.1 ∉ excluded))
  let m := minList (cand.map (fun q => q.2.endTime)) maxTime
  (sortIDs ((cand.filter (fun q => decide (q.2.endTime = m))).map Prod.fst), m)

/-- The deposit ids a modification set marks `removed` (the first loop of
both `GetNextToUnlockDeposit*` methods collects them into the
caller-supplied set). -/
def removedIDsOf (mods : List (Nat × DepositDiff)) : List Nat :=
  (mods.filter (fun q => q.2.removed)).map Prod.fst

/-- The deposit ids this diff marks `removed`. -/
def Diff.removedDepositIDs (d : Diff) : List Nat :=
  removedIDsOf d.caminoDiff.modifiedDeposits

/-- The second loop of both `GetNextToUnlockDeposit*` methods: lower the
accumulated unlock time to the end time of every added, not-removed
deposit that ends earlier. -/
def unlockFold (mods : List (Nat × DepositDiff)) (removed : List Nat)
    (t : Nat) : Nat :=
  mods.foldl
    (fun acc q =>
      if q.2.added = true ∧ q.2.deposit.endTime < acc ∧ q.1 ∉ removed then
        q.2.deposit.endTime
      else acc)
    t

/-- The third loop of `GetNextToUnlockDepositIDsAndTime`: the ids of the
added, not-removed deposits whose end time equals the computed minimum. -/
def addedAtMinIDs (mods : List (Nat × DepositDiff)) (removed : List Nat)
    (t : Nat) : List Nat :=
  (mods.filter (fun q =>
    decide (q.2.added = true ∧ q.2.deposit.endTime = t ∧ q.1 ∉ removed))).map
    Prod.fst

/-- `diff.GetNextToUnlockDepositTime`.  The Go method mutates the
caller-supplied `removedDepositIDs` set; the model returns the updated set
as the second component. -/
def Diff.GetNextToUnlockDepositTime (d : Diff) (removedDepositIDs : List Nat) :
    Except Err Nat × List Nat :=
  match d.stateVersions d.parentID with
  | none => (.error (.missingParentState d.parentID), removedDepositIDs)
  | some parentState =>
    let removed := removedDepositIDs ++ d.removedDepositIDs
    let parentNextUnlockTime := (baseNextToUnlock parentState.deposits removed).2
    let nextUnlockTime :=
      unlockFold d.caminoDiff.modifiedDeposits removed parentNextUnlockTime
    if nextUnlockTime = maxTime then (.error .notFound, removed)
    else (.ok nextUnlockTime, removed)

/-- `diff.GetNextToUnlockDepositIDsAndTime`.  The Go method mutates the
caller-supplied `removedDepositIDs` set; the model returns the updated set
as the second component. -/
def Diff.GetNextToUnlockDepositIDsAndTime (d : Diff)
    (removedDepositIDs : List Nat) :
    Except Err (List Nat × Nat) × List Nat :=
  match d.stateVersions d.parentID with
  | none => (.error (.missingParentState d.parentID), removedDepositIDs)
  | some parentState =>
    let removed := removedDepositIDs ++ d.removedDepositIDs
    let parentRes := baseNextToUnlock parentState.deposits removed
    let nextUnlockTime :=
      unlockFold d.caminoDiff.modifiedDeposits removed parentRes.2
    if nextUnlockTime = maxTime then (.error .notFound, removed)
    else
      let base := if parentRes.2 ≤ nextUnlockTime then parentRes.1 else []
      let addedAtMin :=
        addedAtMinIDs d.caminoDiff.modifiedDeposits removed nextUnlockTime
      let ids := if addedAtMin.isEmpty then base ++ addedAtMin
        else sortIDs (base ++ addedAtMin)
      (.ok (ids, nextUnlockTime), removed)

/-- The deposits a modification set marks `added`. -/
def addedOf (mods : List (Nat × DepositDiff)) : List (Nat × Deposit) :=
  (mods.filter (fun q => q.2.added)).map (fun q => (q.1, q.2.deposit))

/-- The added deposits surviving the removed-set filter. -/
def addedCand (mods : List (Nat × DepositDiff)) (removed : List Nat) :
    List (Nat × Deposit) :=
  (addedOf mods).filter (fun q => decide (q.1 ∉ removed))

/-- The deposits added by this diff. -/
def Diff.addedDeposits (d : Diff) : List (Nat × Deposit) :=
  addedOf d.caminoDiff.modifiedDeposits

/-- The effective deposit set of a diff over its parent: the parent's
deposits minus the diff-removed ids, plus the diff-added deposits. -/
def effectiveDeposits (d : Diff) (p : ParentState) : List (Nat × Deposit) :=
  p.deposits.filter (fun q => decide (q.1 ∉ d.removedDepositIDs)) ++
    d.addedDeposits

/-- The claim's reading of `GetNextToUnlockDepositIDsAndTime`: over a
deposit set, exclude `excluded`, return `NotFound` when nothing remains,
and otherwise the ascending ids tied at the minimum end time together with
that time. -/
def specNextToUnlock (deps : List (Nat × Deposit)) (excluded : List Nat) :
    Except Err (List Nat × Nat) :=
  let cand := deps.filter (fun q => decide (q.1 ∉ excluded))
  if cand.isEmpty then .error .notFound
  else .ok (sortIDs ((cand.filter (fun q => decide (q.2.endTime =
      minList (cand.map (fun q => q.2.endTime)) maxTime))).map Prod.fst),
    minList (cand.map (fun q => q.2.endTime)) maxTime)

/-! ## `LockedUTXOs` (src/unnamed/part_002, 38-78) -/

/-- Step 1 of `diff.LockedUTXOs`: walk the parent's answer, dropping UTXOs
tombstoned by the diff and replacing in place the ones the diff modified. -/
def applyUTXOMods (mods : List (Nat × Option UTXO)) : List UTXO → List UTXO
  | [] => []
  | u :: rest =>
    match findKey u.utxoID mods with
    | some none => applyUTXOMods mods rest
    | some (some v) => v :: applyUTXOMods mods rest
    | none => u :: applyUTXOMods mods rest

/-- The `remaining` set after step 1: modified utxo ids that did not occur
in the parent's answer. -/
def remainingUTXOIDs (mods : List (Nat × Option UTXO)) (parentUtxos : List UTXO) :
    List Nat :=
  (mods.map Prod.fst).filter
    (fun k => decide (∀ u ∈ parentUtxos, u.utxoID ≠ k))

/-- `diff.LockedUTXOs`. -/
def Diff.LockedUTXOs (d : Diff) (txIDs : List Nat) (addresses : List Nat)
    (lockState : LockState) : Except Err (List UTXO) :=
  match d.stateVersions d.parentID with
  | none => .error (.missingParentState d.parentID)
  | some parentState =>
    match parentState.lockedUTXOs txIDs addresses lockState with
    | .error e => .error e
    | .ok parentUtxos =>
      let mods := d.caminoDiff.modifiedUTXOs
      let step1 := applyUTXOMods mods parentUtxos
      let appended := (remainingUTXOIDs mods parentUtxos).filterMap (fun k =>
        match findKey k mods with
        | some (some u) =>
          match u.out with
          | .lockedOut ids => if ids.match_ lockState txIDs then some u else none
          | .transfer => none
        | _ => none)
      .ok (step1 ++ appended)

/-- The claim's reading of `LockedUTXOs`: remove from the parent's answer
every UTXO whose id appears in `modified_utxos`, then append the UTXOs
introduced by the diff whose lock ids match the requested state and tx
ids. -/
def specLockedUTXOs (parentUtxos : List UTXO) (mods : List (Nat × Option UTXO))
    (txIDs : List Nat) (lockState : LockState) : List UTXO :=
  parentUtxos.filter (fun u => decide (findKey u.utxoID mods = none)) ++
    mods.filterMap (fun q =>
      match q.2 with
      | some u =>
        match u.out with
        | .lockedOut ids => if ids.match_ lockState txIDs then some u else none
        | .transfer => none
      | none => none)

/-- Per-element effect of the diff on the parent's `LockedUTXOs` answer:
tombstoned entries are dropped, modified entries are replaced in place
(with no lock-state check), unmodified entries are kept. -/
def replaceOrDrop (mods : List (Nat × Option UTXO)) (u : UTXO) : Option UTXO :=
  match findKey u.utxoID mods with
  | some none => none
  | some (some v) => some v
  | none => some u

/-- The UTXOs a diff appends to the parent's `LockedUTXOs` answer: modified
entries whose id does not occur in that answer, non-tombstone, carrying a
locked output that matches the requested lock state and tx ids. -/
def introducedMatching (mods : List (Nat × Option UTXO))
    (parentUtxos : List UTXO) (txIDs : List Nat) (lockState : LockState) :
    List UTXO :=
  (mods.filter (fun q => decide (∀ u ∈ parentUtxos, u.utxoID ≠ q.1))).filterMap
    (fun q =>
      match q.2 with
      | some u =>
        match u.out with
        | .lockedOut ids => if ids.match_ lockState txIDs then some u else none
        | .transfer => none
      | none => none)

/-! ## Transaction builder (src/unnamed/part_001)

A private key is modelled by the address it controls.  `b.Lock` (the spend
planner, not under src/) is passed in as its result: per the spec
(section 4.2 and the post-conditions of section 4.4) it yields inputs,
outputs and one signer bundle per input. -/

/-- The result of `b.Lock`: inputs, outputs, and one signer key bundle per
input. -/
structure SpendResult where
  ins : List Nat
  outs : List Nat
  signers : List (List Nat)
deriving DecidableEq

/-- Modelled from the spec (section 4.3): `secp256k1fx.Keychain.Match`
returns the keys of the keychain whose addresses appear in the owner list,
and whether they reach the threshold with the locktime passed. -/
def kcMatch (kc : List Nat) (owner : Owner) (now : Nat) : List Nat × Bool :=
  let keys := owner.addrs.filter (fun a => decide (a ∈ kc))
  (keys, decide (owner.threshold ≤ keys.length) && decide (owner.locktime ≤ now))

/-- Modelled from the spec: `secp256k1fx.Keychain.Add` appends a key unless
its address is already present. -/
def kcAdd (kc : List Nat) (k : Nat) : List Nat :=
  if k ∈ kc then kc else kc ++ [k]

/-- The first `NewClaimTx` loop: for every listed deposit, fetch its
rewards owner, match it against the user keychain, fail with `KeyMissing`
when the threshold cannot be met, and add the matched signers to the
accumulated claim-signer keychain. -/
def collectDepositSigners (rewardsOwner : Nat → Except Err Owner)
    (keys : List Nat) (now : Nat) :
    List Nat → List Nat → Except Err (List Nat)
  | [], kc => .ok kc
  | depositTxID :: rest, kc =>
    match rewardsOwner depositTxID with
    | .error e => .error e
    | .ok owner =>
      let m := kcMatch keys owner now
      if m.2 then collectDepositSigners rewardsOwner keys now rest (m.1.foldl kcAdd kc)
      else .error .keyMissing

/-- The second `NewClaimTx` loop, over the listed claimable owners. -/
def collectClaimableSigners (getClaimable : Nat → Except Err Claimable)
    (keys : List Nat) (now : Nat) :
    List Nat → List Nat → Except Err (List Nat)
  | [], kc => .ok kc
  | ownerID :: rest, kc =>
    match getClaimable ownerID with
    | .error e => .error e
    | .ok claimable =>
      let m := kcMatch keys claimable.owner now
      if m.2 then collectClaimableSigners getClaimable keys now rest (m.1.foldl kcAdd kc)
      else .error .keyMissing

/-- `caminoBuilder.NewClaimTx`, returning the signer bundle list of the
produced transaction (`txs.NewSigned` turns each bundle into one
credential).  `lockResult` stands for the `b.Lock` call, `rewardsOwner`
for `getDepositRewardsOwner`, `getClaimable` for `b.state.GetClaimable`. -/
def NewClaimTx (lockModeBondDeposit : Bool)
    (lockResult : Except Err SpendResult)
    (rewardsOwner : Nat → Except Err Owner)
    (getClaimable : Nat → Except Err Claimable)
    (keys : List Nat) (now : Nat)
    (depositTxIDs : List Nat) (claimableOwnerIDs : List Nat) :
    Except Err (List (List Nat)) :=
  if lockModeBondDeposit = false then .error .wrongLockMode
  else
    match lockResult with
    | .error e => .error e
    | .ok lr =>
      match collectDepositSigners rewardsOwner keys now depositTxIDs [] with
      | .error e => .error e
      | .ok kc1 =>
        match collectClaimableSigners getClaimable keys now claimableOwnerIDs kc1 with
        | .error e => .error e
        | .ok kc2 => .ok (lr.signers ++ [kc2])

/-! ## `NewRewardsImportTx` (src/unnamed/part_001, 564-635) -/

/-- A timed UTXO (`avax.TimedUTXO`). -/
structure TimedUTXO where
  utxo : UTXO
  timestamp : Nat
deriving DecidableEq

/-- Wrap-around `uint64` subtraction, for `now - atomic.SharedMemorySyncBound`. -/
def u64sub (a b : Nat) : Nat := (a % 2 ^ 64 + (2 ^ 64 - b % 2 ^ 64)) % 2 ^ 64

/-- The `NewRewardsImportTx` UTXO loop: each shared-memory byte string
either unmarshals to a timed UTXO (`some`) or fails (`none`, modelling the
`Codec.Unmarshal` error) and is then silently skipped; a decoded UTXO is
kept when its timestamp is at most `now - bound`. -/
def rewardsImportUTXOs (now bound : Nat) :
    List (Option TimedUTXO) → List UTXO
  | [] => []
  | none :: rest => rewardsImportUTXOs now bound rest
  | some t :: rest =>
    if t.timestamp ≤ u64sub now bound then
      t.utxo :: rewardsImportUTXOs now bound rest
    else rewardsImportUTXOs now bound rest

/-- `caminoBuilder.NewRewardsImportTx`, returning the sorted utxo ids of
the produced transaction's inputs (one `TransferableInput` per kept UTXO,
keyed by its `UTXOID`; the `fakeTreasuryKeychain.Spend` of a
treasury-owned shared-memory output is modelled as succeeding, per the
treasury-trait indexed query). -/
def NewRewardsImportTx (lockModeBondDeposit : Bool)
    (allUTXOsBytes : List (Option TimedUTXO)) (now bound : Nat) :
    Except Err (List Nat) :=
  if lockModeBondDeposit = false then .error .wrongLockMode
  else
    let utxos := rewardsImportUTXOs now bound allUTXOsBytes
    if utxos.isEmpty then .error .noUTXOsForImport
    else .ok (sortIDs (utxos.map (fun u => u.utxoID)))

/-! ## `GetAllDepositOffers` service filter (src/vms/platformvm/camino_service.go, 803-823) -/

/-- `CaminoService.GetAllDepositOffers` applied to the offers returned by
the state: with `active = true`, keep only the offers without the `Locked`
flag. -/
def serviceGetAllDepositOffers (depositOffers : List Offer) (active : Bool) :
    List Offer :=
  if active then
    depositOffers.filter (fun o => decide (o.flags &&& OfferFlagLocked = 0))
  else depositOffers

/-! ## Write-list view of `ApplyCaminoState` -/

/-- Apply a list of keyed writes to a store, first to last. -/
def writeAll {K B : Type} [DecidableEq K] (s : K → B) : List (K × B) → K → B
  | [] => s
  | q :: rest => writeAll (fun x => if x = q.1 then q.2 else s x) rest

/-- The last write a list of keyed writes performs on key `x`. -/
def lastWrite {K B : Type} [DecidableEq K] (l : List (K × B)) (x : K) :
    Option B :=
  match l with
  | [] => none
  | q :: rest =>
    match lastWrite rest x with
    | some v => some v
    | none => if x = q.1 then some q.2 else none

/-- The keyed writes `ApplyCaminoState` performs on the offer store. -/
def offerWrites (l : List (Nat × Offer)) : List (Nat × Option Offer) :=
  l.map (fun q => (q.2.id, some q.2))

/-- The keyed writes `ApplyCaminoState` performs on the deposit store. -/
def depositWrites (l : List (Nat × DepositDiff)) : List (Nat × Option Deposit) :=
  l.map (fun q =>
    (q.1, if q.2.added then some q.2.deposit
      else if q.2.removed then none else some q.2.deposit))

/-- The keyed writes `ApplyCaminoState` performs on the multisig store. -/
def msigWrites (l : List (Nat × Option Alias)) : List (Nat × Option Alias) :=
  l.filterMap (fun q => q.2.map (fun a => (a.id, some a)))

/-- The keyed writes `ApplyCaminoState` performs on the deferred-validator
store. -/
def deferredWrites (l : List ValidatorDiffEntry) :
    List ((Nat × Nat) × Option Staker) :=
  l.filterMap (fun e =>
    if e.validatorModified then
      some ((e.validator.subnetID, e.validator.nodeID),
        if e.validatorDeleted then none else some e.validator)
    else none)

/-! ## Concrete instances used by the witnesses and counterexamples -/

/-- `newCaminoDiff()`: all modification sets empty. -/
def emptyCaminoDiff : CaminoDiffData :=
  ⟨[], [], [], [], [], [], none, [], []⟩

/-- A concrete parent state with distinctive getter answers. -/
def pW : ParentState where
  getAddressStates := fun a => .ok (a + 100)
  getDepositOffer := fun i => .ok ⟨i, 0⟩
  getAllDepositOffers := .ok [⟨6, 0⟩]
  getDeposit := fun i => .ok ⟨i, 7⟩
  getMultisigAlias := fun a => .ok ⟨a⟩
  getShortIDLink := fun q => .ok (q.1 + q.2)
  getClaimable := fun i => .ok ⟨⟨0, 1, [i]⟩, 3, 4⟩
  getNotDistributedValidatorReward := .ok 55
  lockedUTXOs := fun _ _ _ => .ok [⟨1, .transfer⟩]
  deposits := [(1, ⟨500, 500⟩)]

/-- A diff over `pW` with empty modification sets. -/
def dW : Diff where
  parentID := 0
  stateVersions := fun _ => some pW
  caminoDiff := emptyCaminoDiff

/-- A diff over `pW` that adds deposit `2` with end time `900`
(spec scenario S6). -/
def dAddW : Diff where
  parentID := 0
  stateVersions := fun _ => some pW
  caminoDiff := { emptyCaminoDiff with
    modifiedDeposits := [(2, ⟨⟨400, 500⟩, true, false⟩)] }

/-- A diff over `pW` that removes the parent's only deposit `1`. -/
def dRemoveW : Diff where
  parentID := 0
  stateVersions := fun _ => some pW
  caminoDiff := { emptyCaminoDiff with
    modifiedDeposits := [(1, ⟨⟨500, 500⟩, false, true⟩)] }

/-- A diff over `pW` holding tombstones in every nullable modification
set. -/
def dTombW : Diff where
  parentID := 0
  stateVersions := fun _ => some pW
  caminoDiff := { emptyCaminoDiff with
    modifiedDeposits := [(1, ⟨⟨500, 500⟩, false, true⟩)]
    modifiedMultisigOwners := [(2, none)]
    modifiedShortLinks := [((3, 0), none)]
    modifiedClaimables := [(4, none)] }

/-- A diff over `pW` that replaces the parent-answer UTXO `1` with a
deposited UTXO that does not match an `unlocked` query. -/
def dUTXOW : Diff where
  parentID := 0
  stateVersions := fun _ => some pW
  caminoDiff := { emptyCaminoDiff with
    modifiedUTXOs := [(1, some ⟨1, .lockedOut ⟨some 5, none⟩⟩)] }

/-- A diff over `pW` that tombstones deposit `2` (the added-then-removed
deposit of spec scenario S6: `RemoveDeposit` overwrites the map entry). -/
def dTombYW : Diff where
  parentID := 0
  stateVersions := fun _ => some pW
  caminoDiff := { emptyCaminoDiff with
    modifiedDeposits := [(2, ⟨⟨400, 500⟩, false, true⟩)] }

/-- A locked deposit offer used by the C9 witness. -/
def lockedOfferW : Offer := ⟨9, 1⟩

/-- A diff over `pW` whose modification set holds `lockedOfferW`. -/
def dOfferW : Diff where
  parentID := 0
  stateVersions := fun _ => some pW
  caminoDiff := { emptyCaminoDiff with
    modifiedDepositOffers := [(9, lockedOfferW)] }

/-! ## Claim statement abbreviations -/

/-- Claim C2, over a diff `d` with resolved parent `p`: every getter
falls through to the parent's answer on unmodified keys, and returns the
written value right after the matching setter ran. -/
def ReadThrough (d : Diff) (p : ParentState) : Prop :=
  (∀ k, findKey k d.caminoDiff.modifiedAddressStates = none →
      d.GetAddressStates k = p.getAddressStates k) ∧
  (∀ k v, (d.SetAddressStates k v).GetAddressStates k = .ok v) ∧
  (∀ k, findKey k d.caminoDiff.modifiedDepositOffers = none →
      d.GetDepositOffer k = p.getDepositOffer k) ∧
  (∀ o : Offer, (d.SetDepositOffer o).GetDepositOffer o.id = .ok o) ∧
  (∀ k, findKey k d.caminoDiff.modifiedDeposits = none →
      d.GetDeposit k = p.getDeposit k) ∧
  (∀ k dep, (d.AddDeposit k dep).GetDeposit k = .ok dep) ∧
  (∀ k dep, (d.ModifyDeposit k dep).GetDeposit k = .ok dep) ∧
  (∀ k, findKey k d.caminoDiff.modifiedMultisigOwners = none →
      d.GetMultisigAlias k = p.getMultisigAlias k) ∧
  (∀ a : Alias, (d.SetMultisigAlias a).GetMultisigAlias a.id = .ok a) ∧
  (∀ id key, findKey (id, key) d.caminoDiff.modifiedShortLinks = none →
      d.GetShortIDLink id key = p.getShortIDLink (id, key)) ∧
  (∀ id key v, (d.SetShortIDLink id key (some v)).GetShortIDLink id key = .ok v) ∧
  (∀ k, findKey k d.caminoDiff.modifiedClaimables = none →
      d.GetClaimable k = p.getClaimable k) ∧
  (∀ k c, (d.SetClaimable k (some c)).GetClaimable k = .ok c) ∧
  (d.caminoDiff.modifiedNotDistributedValidatorReward = none →
      d.GetNotDistributedValidatorReward = p.getNotDistributedValidatorReward) ∧
  (∀ r, (d.SetNotDistributedValidatorReward r).GetNotDistributedValidatorReward = .ok r)

/-- Claim C7, over a diff `d`: a tombstone in the diff's own modification
set makes `GetMultisigAlias`, `GetShortIDLink`, `GetClaimable` and
`GetDeposit` answer `NotFound`. -/
def TombstoneShortCircuit (d : Diff) : Prop :=
  (∀ k, findKey k d.caminoDiff.modifiedMultisigOwners = some none →
      d.GetMultisigAlias k = .error .notFound) ∧
  (∀ id key, findKey (id, key) d.caminoDiff.modifiedShortLinks = some none →
      d.GetShortIDLink id key = .error .notFound) ∧
  (∀ k, findKey k d.caminoDiff.modifiedClaimables = some none →
      d.GetClaimable k = .error .notFound) ∧
  (∀ k dd, findKey k d.caminoDiff.modifiedDeposits = some dd →
      dd.removed = true → d.GetDeposit k = .error .notFound)

/-! ## Store lemmas -/

theorem writeAll_apply {K B : Type} [DecidableEq K] (s : K → B)
    (l : List (K × B)) (x : K) :
    writeAll s l x = match lastWrite l x with | some v => v | none => s x := by
  induction l generalizing s with
  | nil => rfl
  | cons q rest ih =>
    simp only [writeAll, lastWrite]
    rw [ih]
    cases lastWrite rest x with
    | some v => rfl
    | none => by_cases hx : x = q.1 <;> simp [hx]

theorem writeAll_idem {K B : Type} [DecidableEq K] (s : K → B)
    (l : List (K × B)) :
    writeAll (writeAll s l) l = writeAll s l := by
  funext x
  rw [writeAll_apply, writeAll_apply]
  cases h : lastWrite l x <;> rfl

theorem foldl_SetAddressStates (l : List (Nat × Nat)) (b : BaseState) :
    l.foldl (fun s q => s.SetAddressStates q.1 q.2) b =
      { b with addressStates := writeAll b.addressStates l } := by
  induction l generalizing b with
  | nil => rfl
  | cons q rest ih => rw [List.foldl_cons, ih]; rfl

theorem foldl_SetDepositOffer (l : List (Nat × Offer)) (b : BaseState) :
    l.foldl (fun s q => s.SetDepositOffer q.2) b =
      { b with depositOffers := writeAll b.depositOffers (offerWrites l) } := by
  induction l generalizing b with
  | nil => rfl
  | cons q rest ih => rw [List.foldl_cons, ih]; rfl

theorem foldl_deposits (l : List (Nat × DepositDiff)) (b : BaseState) :
    l.foldl
      (fun s q =>
        if q.2.added then s.AddDeposit q.1 q.2.deposit
        else if q.2.removed then s.RemoveDeposit q.1 q.2.deposit
        else s.ModifyDeposit q.1 q.2.deposit) b =
      { b with deposits := writeAll b.deposits (depositWrites l) } := by
  induction l generalizing b with
  | nil => rfl
  | cons q rest ih =>
    rw [List.foldl_cons, ih]
    by_cases ha : q.2.added
    · simp [ha, BaseState.AddDeposit, depositWrites, writeAll]
    · by_cases hr : q.2.removed
      · simp [ha, hr, BaseState.RemoveDeposit, depositWrites, writeAll]
      · simp [ha, hr, BaseState.ModifyDeposit, depositWrites, writeAll]

theorem foldl_SetMultisigAlias (l : List (Nat × Option Alias)) (b : BaseState) :
    l.foldl
      (fun s q => match q.2 with
        | some a => s.SetMultisigAlias a
        | none => s) b =
      { b with multisigOwners := writeAll b.multisigOwners (msigWrites l) } := by
  induction l generalizing b with
  | nil => rfl
  | cons q rest ih =>
    rw [List.foldl_cons, ih]
    cases hq : q.2 with
    | none => simp [msigWrites, hq]
    | some a => simp [msigWrites, hq, BaseState.SetMultisigAlias, writeAll]

theorem foldl_SetShortIDLink (l : List ((Nat × Nat) × Option Nat)) (b : BaseState) :
    l.foldl (fun s q => s.SetShortIDLink q.1 q.2) b =
      { b with shortLinks := writeAll b.shortLinks l } := by
  induction l generalizing b with
  | nil => rfl
  | cons q rest ih => rw [List.foldl_cons, ih]; rfl

theorem foldl_SetClaimable (l : List (Nat × Option Claimable)) (b : BaseState) :
    l.foldl (fun s q => s.SetClaimable q.1 q.2) b =
      { b with claimables := writeAll b.claimables l } := by
  induction l generalizing b with
  | nil => rfl
  | cons q rest ih => rw [List.foldl_cons, ih]; rfl

theorem foldl_deferred (l : List ValidatorDiffEntry) (b : BaseState) :
    l.foldl
      (fun s e =>
        if e.validatorModified then
          if e.validatorDeleted then s.DeleteDeferredValidator e.validator
          else s.PutDeferredValidator e.validator
        else s) b =
      { b with deferredValidators :=
          writeAll b.deferredValidators (deferredWrites l) } := by
  induction l generalizing b with
  | nil => rfl
  | cons e rest ih =>
    rw [List.foldl_cons, ih]
    by_cases hm : e.validatorModified
    · by_cases hd : e.validatorDeleted
      · simp [hm, hd, BaseState.DeleteDeferredValidator, deferredWrites,
          writeAll]
      · simp [hm, hd, BaseState.PutDeferredValidator, deferredWrites,
          writeAll]
    · simp [hm, deferredWrites]

/-- `ApplyCaminoState` written as independent per-store write lists. -/
theorem ApplyCaminoState_eq (d : Diff) (b : BaseState) :
    d.ApplyCaminoState b =
      { notDistributedValidatorReward :=
          match d.caminoDiff.modifiedNotDistributedValidatorReward with
          | some r => r
          | none => b.notDistributedValidatorReward
        addressStates := writeAll b.addressStates d.caminoDiff.modifiedAddressStates
        depositOffers :=
          writeAll b.depositOffers (offerWrites d.caminoDiff.modifiedDepositOffers)
        deposits := writeAll b.deposits (depositWrites d.caminoDiff.modifiedDeposits)
        multisigOwners :=
          writeAll b.multisigOwners (msigWrites d.caminoDiff.modifiedMultisigOwners)
        shortLinks := writeAll b.shortLinks d.caminoDiff.modifiedShortLinks
        claimables := writeAll b.claimables d.caminoDiff.modifiedClaimables
        deferredValidators :=
          writeAll b.deferredValidators
            (deferredWrites d.caminoDiff.deferredStakerDiffs) } := by
  unfold Diff.ApplyCaminoState
  cases hr : d.caminoDiff.modifiedNotDistributedValidatorReward with
  | none =>
    simp only [hr, foldl_SetAddressStates, foldl_SetDepositOffer, foldl_deposits,
      foldl_SetMultisigAlias, foldl_SetShortIDLink, foldl_SetClaimable,
      foldl_deferred]
  | some r =>
    simp only [hr, foldl_SetAddressStates, foldl_SetDepositOffer, foldl_deposits,
      foldl_SetMultisigAlias, foldl_SetShortIDLink, foldl_SetClaimable,
      foldl_deferred, BaseState.SetNotDistributedValidatorReward]

/-! ## Claims C1, C2, C7, C9 -/

/-- C1: `ApplyCaminoState` is idempotent: after applying a diff to a base
state once, applying the same (uncleared) diff again replays the same
modification sets and leaves the base state with the same final values. -/
theorem applyCaminoState_idempotent (d : Diff) (b : BaseState) :
    d.ApplyCaminoState (d.ApplyCaminoState b) = d.ApplyCaminoState b := by
  rw [ApplyCaminoState_eq d b, ApplyCaminoState_eq d]
  apply BaseState.ext
  · cases d.caminoDiff.modifiedNotDistributedValidatorReward <;> rfl
  · exact writeAll_idem _ _
  · exact writeAll_idem _ _
  · exact writeAll_idem _ _
  · exact writeAll_idem _ _
  · exact writeAll_idem _ _
  · exact writeAll_idem _ _
  · exact writeAll_idem _ _

/-- C2: for a diff whose parent is resolvable via `StateVersions`, every
getter returns the parent's answer on keys the diff has not modified, and
returns the just-written value after the matching setter ran. -/
theorem diff_readThrough (d : Diff) (p : ParentState)
    (hp : d.stateVersions d.parentID = some p) : ReadThrough d p := by
  refine ⟨?_, ?_, ?_, ?_, ?_, ?_, ?_, ?_, ?_, ?_, ?_, ?_, ?_, ?_, ?_⟩
  · intro k h
    simp [Diff.GetAddressStates, h, hp]
  · intro k v
    simp [Diff.SetAddressStates, Diff.GetAddressStates, setKey, findKey]
  · intro k h
    simp [Diff.GetDepositOffer, h, hp]
  · intro o
    simp [Diff.SetDepositOffer, Diff.GetDepositOffer, setKey, findKey]
  · intro k h
    simp [Diff.GetDeposit, h, hp]
  · intro k dep
    simp [Diff.AddDeposit, Diff.GetDeposit, setKey, findKey]
  · intro k dep
    simp [Diff.ModifyDeposit, Diff.GetDeposit, setKey, findKey]
  · intro k h
    simp [Diff.GetMultisigAlias, h, hp]
  · intro a
    simp [Diff.SetMultisigAlias, Diff.GetMultisigAlias, setKey, findKey]
  · intro id key h
    simp [Diff.GetShortIDLink, h, hp]
  · intro id key v
    simp [Diff.SetShortIDLink, Diff.GetShortIDLink, setKey, findKey]
  · intro k h
    simp [Diff.GetClaimable, h, hp]
  · intro k c
    simp [Diff.SetClaimable, Diff.GetClaimable, setKey, findKey]
  · intro h
    simp [Diff.GetNotDistributedValidatorReward, h, hp]
  · intro r
    simp [Diff.SetNotDistributedValidatorReward,
      Diff.GetNotDistributedValidatorReward]

/-- Witness for C2 at the concrete diff `dW` over `pW`. -/
theorem diff_readThrough_witness :
    dW.stateVersions dW.parentID = some pW ∧ ReadThrough dW pW :=
  ⟨rfl, diff_readThrough dW pW rfl⟩

/-- C7: a tombstone stored in the diff's own modification set makes
`GetMultisigAlias`, `GetShortIDLink`, `GetClaimable` and `GetDeposit`
return `NotFound`.  The statement carries no assumption on
`stateVersions`, so the answer cannot depend on (and the getter cannot
have consulted) the parent state. -/
theorem diff_tombstones (d : Diff) : TombstoneShortCircuit d := by
  refine ⟨?_, ?_, ?_, ?_⟩
  · intro k h
    simp [Diff.GetMultisigAlias, h]
  · intro id key h
    simp [Diff.GetShortIDLink, h]
  · intro k h
    simp [Diff.GetClaimable, h]
  · intro k dd h hr
    simp [Diff.GetDeposit, h, hr]

/-- Witness for C7 at the concrete diff `dTombW`. -/
theorem diff_tombstones_witness :
    (findKey 2 dTombW.caminoDiff.modifiedMultisigOwners = some none ∧
      dTombW.GetMultisigAlias 2 = .error .notFound) ∧
    (findKey (3, 0) dTombW.caminoDiff.modifiedShortLinks = some none ∧
      dTombW.GetShortIDLink 3 0 = .error .notFound) ∧
    (findKey 4 dTombW.caminoDiff.modifiedClaimables = some none ∧
      dTombW.GetClaimable 4 = .error .notFound) ∧
    (findKey 1 dTombW.caminoDiff.modifiedDeposits =
        some ⟨⟨500, 500⟩, false, true⟩ ∧
      dTombW.GetDeposit 1 = .error .notFound) :=
  ⟨⟨rfl, (diff_tombstones dTombW).1 2 rfl⟩,
   ⟨rfl, (diff_tombstones dTombW).2.1 3 0 rfl⟩,
   ⟨rfl, (diff_tombstones dTombW).2.2.1 4 rfl⟩,
   ⟨rfl, (diff_tombstones dTombW).2.2.2 1 ⟨⟨500, 500⟩, false, true⟩ rfl rfl⟩⟩

/-- C9: an offer carrying the `Locked` flag never appears in the
`GetAllDepositOffers` service answer for `active = true`, yet
`GetDepositOffer` by id still returns it when the diff holds it. -/
theorem lockedOffer_invisible_yet_resolvable (offers : List Offer) (o : Offer)
    (hflag : o.flags &&& OfferFlagLocked ≠ 0) :
    o ∉ serviceGetAllDepositOffers offers true ∧
    ∀ (d : Diff) (offerID : Nat),
      findKey offerID d.caminoDiff.modifiedDepositOffers = some o →
      d.GetDepositOffer offerID = .ok o := by
  constructor
  · intro hmem
    simp only [serviceGetAllDepositOffers, if_true, List.mem_filter,
      decide_eq_true_eq] at hmem
    exact hflag hmem.2
  · intro d offerID h
    simp [Diff.GetDepositOffer, h]

/-- Witness for C9 at the locked offer `lockedOfferW` and the diff
`dOfferW`. -/
theorem lockedOffer_invisible_yet_resolvable_witness :
    lockedOfferW.flags &&& OfferFlagLocked ≠ 0 ∧
    lockedOfferW ∉ serviceGetAllDepositOffers [⟨6, 0⟩, lockedOfferW] true ∧
    dOfferW.GetDepositOffer 9 = .ok lockedOfferW :=
  ⟨by decide,
   (lockedOffer_invisible_yet_resolvable [⟨6, 0⟩, lockedOfferW] lockedOfferW
     (by decide)).1,
   (lockedOffer_invisible_yet_resolvable [⟨6, 0⟩, lockedOfferW] lockedOfferW
     (by decide)).2 dOfferW 9 rfl⟩

/-! ## Claim C10 -/

/-- C10: `GetNextToUnlockDepositTime` and
`GetNextToUnlockDepositIDsAndTime` mutate the caller-supplied
`removedDepositIDs` set: when the parent resolves, the set handed back to
the caller is the input set extended with every deposit id the diff marks
removed, whatever the call's outcome. -/
theorem nextToUnlock_mutates_removed_set (d : Diff) (p : ParentState)
    (removedIn : List Nat) (hp : d.stateVersions d.parentID = some p) :
    (d.GetNextToUnlockDepositTime removedIn).2 =
        removedIn ++ d.removedDepositIDs ∧
    (d.GetNextToUnlockDepositIDsAndTime removedIn).2 =
        removedIn ++ d.removedDepositIDs ∧
    ∀ q ∈ d.caminoDiff.modifiedDeposits, q.2.removed = true →
      q.1 ∈ (d.GetNextToUnlockDepositTime removedIn).2 ∧
      q.1 ∈ (d.GetNextToUnlockDepositIDsAndTime removedIn).2 := by
  have h1 : (d.GetNextToUnlockDepositTime removedIn).2 =
      removedIn ++ d.removedDepositIDs := by
    simp only [Diff.GetNextToUnlockDepositTime, hp]
    rw [apply_ite Prod.snd]
    simp
  have h2 : (d.GetNextToUnlockDepositIDsAndTime removedIn).2 =
      removedIn ++ d.removedDepositIDs := by
    simp only [Diff.GetNextToUnlockDepositIDsAndTime, hp]
    rw [apply_ite Prod.snd]
    simp
  refine ⟨h1, h2, ?_⟩
  intro q hq hr
  have hmem : q.1 ∈ d.removedDepositIDs := by
    simp only [Diff.removedDepositIDs, removedIDsOf, List.mem_map,
      List.mem_filter]
    exact ⟨q, ⟨hq, hr⟩, rfl⟩
  rw [h1, h2]
  exact ⟨List.mem_append_right _ hmem, List.mem_append_right _ hmem⟩

/-- Witness for C10 at the diff `dRemoveW` (which removes deposit `1`)
with input set `[7]`. -/
theorem nextToUnlock_mutates_removed_set_witness :
    dRemoveW.stateVersions dRemoveW.parentID = some pW ∧
    (dRemoveW.GetNextToUnlockDepositTime [7]).2 =
        [7] ++ dRemoveW.removedDepositIDs ∧
    (dRemoveW.GetNextToUnlockDepositIDsAndTime [7]).2 =
        [7] ++ dRemoveW.removedDepositIDs ∧
    ∀ q ∈ dRemoveW.caminoDiff.modifiedDeposits, q.2.removed = true →
      q.1 ∈ (dRemoveW.GetNextToUnlockDepositTime [7]).2 ∧
      q.1 ∈ (dRemoveW.GetNextToUnlockDepositIDsAndTime [7]).2 :=
  ⟨rfl, nextToUnlock_mutates_removed_set dRemoveW pW [7] rfl⟩

/-! ## Claim C4 -/

theorem applyUTXOMods_eq_filterMap (mods : List (Nat × Option UTXO))
    (l : List UTXO) :
    applyUTXOMods mods l = l.filterMap (replaceOrDrop mods) := by
  induction l with
  | nil => rfl
  | cons u rest ih =>
    simp only [applyUTXOMods, List.filterMap_cons, replaceOrDrop]
    cases h : findKey u.utxoID mods with
    | none => simp [h, ih]
    | some v => cases v <;> simp [h, ih]

theorem appended_eq_introducedMatching (mods : List (Nat × Option UTXO))
    (parentUtxos : List UTXO) (txIDs : List Nat) (lockState : LockState)
    (hnodup : (mods.map Prod.fst).Nodup) :
    (remainingUTXOIDs mods parentUtxos).filterMap (fun k =>
        match findKey k mods with
        | some (some u) =>
          match u.out with
          | .lockedOut ids =>
            if ids.match_ lockState txIDs then some u else none
          | .transfer => none
        | _ => none) =
      introducedMatching mods parentUtxos txIDs lockState := by
  induction mods with
  | nil => rfl
  | cons q rest ih =>
    simp only [List.map_cons, List.nodup_cons] at hnodup
    obtain ⟨hq, hrest⟩ := hnodup
    have htail : ∀ k ∈ remainingUTXOIDs rest parentUtxos,
        (match findKey k (q :: rest) with
          | some (some u) =>
            match u.out with
            | .lockedOut ids =>
              if ids.match_ lockState txIDs then some u else none
            | .transfer => none
          | _ => none) =
        (match findKey k rest with
          | some (some u) =>
            match u.out with
            | .lockedOut ids =>
              if ids.match_ lockState txIDs then some u else none
            | .transfer => none
          | _ => none) := by
      intro k hk
      have hkmem : k ∈ rest.map Prod.fst := by
        simp only [remainingUTXOIDs, List.mem_filter] at hk
        exact hk.1
      have hne : q.1 ≠ k := fun h => hq (h ▸ hkmem)
      simp only [findKey, if_neg hne]
    have hstep : (remainingUTXOIDs rest parentUtxos).filterMap (fun k =>
        match findKey k (q :: rest) with
        | some (some u) =>
          match u.out with
          | .lockedOut ids =>
            if ids.match_ lockState txIDs then some u else none
          | .transfer => none
        | _ => none) =
        introducedMatching rest parentUtxos txIDs lockState := by
      rw [List.filterMap_congr htail]
      exact ih hrest
    by_cases hP : ∀ u ∈ parentUtxos, u.utxoID ≠ q.1
    · have h1 : remainingUTXOIDs (q :: rest) parentUtxos =
          q.1 :: remainingUTXOIDs rest parentUtxos := by
        simp only [remainingUTXOIDs, List.map_cons, List.filter_cons,
          decide_eq_true_eq]
        rw [if_pos hP]
      have h2 : List.filter
          (fun p => decide (∀ u ∈ parentUtxos, u.utxoID ≠ p.1)) (q :: rest) =
          q :: List.filter
            (fun p => decide (∀ u ∈ parentUtxos, u.utxoID ≠ p.1)) rest := by
        simp only [List.filter_cons, decide_eq_true_eq]
        rw [if_pos hP]
      rw [h1]
      simp only [List.filterMap_cons]
      unfold introducedMatching
      rw [h2]
      simp only [List.filterMap_cons]
      have hhead : findKey q.1 (q :: rest) = some q.2 := by
        simp [findKey]
      rw [hhead]
      cases hv : q.2 with
      | none => rw [hstep]; rfl
      | some u =>
        cases ho : u.out with
        | transfer => rw [hstep]; rfl
        | lockedOut ids =>
          by_cases hm : ids.match_ lockState txIDs
          · simp only [ho, hm, if_true]
            rw [hstep]
            rfl
          · simp only [ho, hm, if_false, Bool.false_eq_true]
            rw [hstep]
            rfl
    · have h1 : remainingUTXOIDs (q :: rest) parentUtxos =
          remainingUTXOIDs rest parentUtxos := by
        simp only [remainingUTXOIDs, List.map_cons, List.filter_cons,
          decide_eq_true_eq]
        rw [if_neg hP]
      have h2 : List.filter
          (fun p => decide (∀ u ∈ parentUtxos, u.utxoID ≠ p.1)) (q :: rest) =
          List.filter
            (fun p => decide (∀ u ∈ parentUtxos, u.utxoID ≠ p.1)) rest := by
        simp only [List.filter_cons, decide_eq_true_eq]
        rw [if_neg hP]
      rw [h1]
      unfold introducedMatching
      rw [h2]
      exact hstep

/-- C4 counterexample: the claim says `LockedUTXOs` removes from the
parent's answer every UTXO whose id appears in `modified_utxos` and
appends only lock-state-matching diff UTXOs.  On `dUTXOW`, whose diff
replaces parent-answer UTXO `1` by a deposited UTXO, the code keeps the
replacement in place (without a lock-state check) while the claim's
reading yields the empty list. -/
theorem lockedUTXOs_claim_counterexample :
    pW.lockedUTXOs [] [] .unlocked = .ok [⟨1, .transfer⟩] ∧
    dUTXOW.LockedUTXOs [] [] .unlocked =
        .ok [⟨1, .lockedOut ⟨some 5, none⟩⟩] ∧
    specLockedUTXOs [⟨1, .transfer⟩] dUTXOW.caminoDiff.modifiedUTXOs []
        .unlocked = [] ∧
    ([⟨1, .lockedOut ⟨some 5, none⟩⟩] : List UTXO) ≠ ([] : List UTXO) :=
  ⟨rfl, rfl, rfl, by decide⟩

/-- C4 as amended: for a diff with resolvable parent whose `LockedUTXOs`
answer is `parentUtxos`, the diff returns that answer with tombstoned
modified UTXOs removed and the other modified UTXOs present in the answer
replaced in place (with no lock-state check), followed by the modified
UTXOs absent from the answer whose lock ids match the requested lock
state and tx ids. -/
theorem lockedUTXOs_characterization (d : Diff) (p : ParentState)
    (txIDs addresses : List Nat) (lockState : LockState)
    (parentUtxos : List UTXO)
    (hp : d.stateVersions d.parentID = some p)
    (hparent : p.lockedUTXOs txIDs addresses lockState = .ok parentUtxos)
    (hnodup : (d.caminoDiff.modifiedUTXOs.map Prod.fst).Nodup) :
    d.LockedUTXOs txIDs addresses lockState =
      .ok (parentUtxos.filterMap (replaceOrDrop d.caminoDiff.modifiedUTXOs) ++
        introducedMatching d.caminoDiff.modifiedUTXOs parentUtxos txIDs
          lockState) := by
  simp only [Diff.LockedUTXOs, hp, hparent]
  rw [applyUTXOMods_eq_filterMap,
    appended_eq_introducedMatching _ _ _ _ hnodup]

/-- Witness for the amended C4 at the diff `dUTXOW`. -/
theorem lockedUTXOs_characterization_witness :
    dUTXOW.stateVersions dUTXOW.parentID = some pW ∧
    pW.lockedUTXOs [] [] .unlocked = .ok [⟨1, .transfer⟩] ∧
    (dUTXOW.caminoDiff.modifiedUTXOs.map Prod.fst).Nodup ∧
    dUTXOW.LockedUTXOs [] [] .unlocked =
      .ok (([⟨1, .transfer⟩] : List UTXO).filterMap
          (replaceOrDrop dUTXOW.caminoDiff.modifiedUTXOs) ++
        introducedMatching dUTXOW.caminoDiff.modifiedUTXOs [⟨1, .transfer⟩] []
          .unlocked) :=
  ⟨rfl, rfl, by decide,
   lockedUTXOs_characterization dUTXOW pW [] [] .unlocked [⟨1, .transfer⟩]
     rfl rfl (by decide)⟩

/-! ## Claim C5 -/

/-- C5 counterexample: the claim says a `NewClaimTx` transaction carries,
after the one credential per input, one trailing role credential per
listed deposit and one per listed claimable owner.  With one input, two
deposits and one claimable owner (all owned by key `1`), that predicts
`1 + 2 + 1 = 4` credentials; the code appends the whole accumulated
claim-signer keychain as a single trailing bundle, producing `2`. -/
theorem claimTx_trailing_credentials_counterexample :
    NewClaimTx true (.ok ⟨[100], [], [[1]]⟩) (fun _ => .ok ⟨0, 1, [1]⟩)
        (fun _ => .ok ⟨⟨0, 1, [1]⟩, 0, 0⟩) [1] 0 [10, 11] [20] =
      .ok [[1], [1]] ∧
    (SpendResult.mk [100] [] [[1]]).signers.length +
        ([10, 11] : List Nat).length + ([20] : List Nat).length = 4 ∧
    ([[1], [1]] : List (List Nat)).length ≠ 4 :=
  ⟨rfl, by decide, by decide⟩

/-- C5 as amended: every transaction `NewClaimTx` returns carries, after
the one credential per input produced by the spend planner, exactly one
trailing role credential, holding the accumulated deduplicated signer
keys of all listed deposits' rewards owners and claimable owners. -/
theorem claimTx_single_trailing_credential (lockModeBondDeposit : Bool)
    (lockResult : Except Err SpendResult)
    (rewardsOwner : Nat → Except Err Owner)
    (getClaimable : Nat → Except Err Claimable)
    (keys : List Nat) (now : Nat)
    (depositTxIDs claimableOwnerIDs : List Nat) (creds : List (List Nat))
    (h : NewClaimTx lockModeBondDeposit lockResult rewardsOwner getClaimable
        keys now depositTxIDs claimableOwnerIDs = .ok creds) :
    ∃ lr kc, lockResult = .ok lr ∧ creds = lr.signers ++ [kc] := by
  by_cases hb : lockModeBondDeposit = false
  · simp only [NewClaimTx, if_pos hb] at h
    exact Except.noConfusion h
  · simp only [NewClaimTx, if_neg hb] at h
    cases hl : lockResult with
    | error e => rw [hl] at h; exact Except.noConfusion h
    | ok lr =>
      rw [hl] at h
      dsimp only at h
      cases hc1 : collectDepositSigners rewardsOwner keys now depositTxIDs []
        with
      | error e => rw [hc1] at h; exact Except.noConfusion h
      | ok kc1 =>
        rw [hc1] at h
        dsimp only at h
        cases hc2 : collectClaimableSigners getClaimable keys now
            claimableOwnerIDs kc1 with
        | error e => rw [hc2] at h; exact Except.noConfusion h
        | ok kc2 =>
          rw [hc2] at h
          dsimp only at h
          refine ⟨lr, kc2, rfl, ?_⟩
          injection h with h2
          exact h2.symm

/-- Witness for the amended C5 at the counterexample's input. -/
theorem claimTx_single_trailing_credential_witness :
    NewClaimTx true (.ok ⟨[100], [], [[1]]⟩) (fun _ => .ok ⟨0, 1, [1]⟩)
        (fun _ => .ok ⟨⟨0, 1, [1]⟩, 0, 0⟩) [1] 0 [10, 11] [20] =
      .ok [[1], [1]] ∧
    ∃ lr kc, (.ok ⟨[100], [], [[1]]⟩ : Except Err SpendResult) = .ok lr ∧
      ([[1], [1]] : List (List Nat)) = lr.signers ++ [kc] :=
  ⟨rfl, claimTx_single_trailing_credential true (.ok ⟨[100], [], [[1]]⟩)
    (fun _ => .ok ⟨0, 1, [1]⟩) (fun _ => .ok ⟨⟨0, 1, [1]⟩, 0, 0⟩) [1] 0
    [10, 11] [20] [[1], [1]] rfl⟩

/-! ## Claim C8 -/

theorem u64sub_eq (now bound : Nat) (hb : bound ≤ now) (hn : now < 2 ^ 64) :
    u64sub now bound = now - bound := by
  unfold u64sub
  omega

theorem mem_rewardsImportUTXOs (now bound : Nat)
    (l : List (Option TimedUTXO)) (u : UTXO) :
    u ∈ rewardsImportUTXOs now bound l ↔
      ∃ t : TimedUTXO, some t ∈ l ∧ t.timestamp ≤ u64sub now bound ∧
        t.utxo = u := by
  induction l with
  | nil => simp [rewardsImportUTXOs]
  | cons b rest ih =>
    cases b with
    | none =>
      simp only [rewardsImportUTXOs, ih, List.mem_cons]
      constructor
      · rintro ⟨t, ht, hts, hu⟩
        exact ⟨t, Or.inr ht, hts, hu⟩
      · rintro ⟨t, ht | ht, hts, hu⟩
        · exact absurd ht (by simp)
        · exact ⟨t, ht, hts, hu⟩
    | some t0 =>
      by_cases hts : t0.timestamp ≤ u64sub now bound
      · simp only [rewardsImportUTXOs, if_pos hts, List.mem_cons, ih]
        constructor
        · rintro (rfl | ⟨t, ht, hts2, hu⟩)
          · exact ⟨t0, Or.inl rfl, hts, rfl⟩
          · exact ⟨t, Or.inr ht, hts2, hu⟩
        · rintro ⟨t, heq | ht2, hts2, hu⟩
          · left
            have ht0 : t = t0 := Option.some.inj heq
            rw [← hu, ht0]
          · right
            exact ⟨t, ht2, hts2, hu⟩
      · simp only [rewardsImportUTXOs, if_neg hts, List.mem_cons, ih]
        constructor
        · rintro ⟨t, ht, hts2, hu⟩
          exact ⟨t, Or.inr ht, hts2, hu⟩
        · rintro ⟨t, heq | ht2, hts2, hu⟩
          · exact absurd hts2 (Option.some.inj heq ▸ hts)
          · exact ⟨t, ht2, hts2, hu⟩

theorem rewardsImportUTXOs_eq_nil (now bound : Nat)
    (l : List (Option TimedUTXO)) :
    rewardsImportUTXOs now bound l = [] ↔
      ∀ t : TimedUTXO, some t ∈ l → ¬ t.timestamp ≤ u64sub now bound := by
  rw [List.eq_nil_iff_forall_not_mem]
  constructor
  · intro h t ht hts
    exact h t.utxo ((mem_rewardsImportUTXOs now bound l t.utxo).2 ⟨t, ht, hts, rfl⟩)
  · intro h u hu
    obtain ⟨t, ht, hts, _⟩ := (mem_rewardsImportUTXOs now bound l u).1 hu
    exact h t ht hts

/-- C8: `NewRewardsImportTx` (with lock mode on) fails with the
no-UTXOs-for-import error exactly when no shared-memory byte string
decodes to a timed UTXO old enough (`timestamp ≤ now - bound`); bytes
failing to decode are silently skipped.  On success the transaction's
inputs consume exactly the UTXOs of the decoded-and-old byte strings. -/
theorem rewardsImportTx_spec (allBytes : List (Option TimedUTXO))
    (now bound : Nat) (hb : bound ≤ now) (hn : now < 2 ^ 64) :
    (NewRewardsImportTx true allBytes now bound = .error .noUTXOsForImport ↔
      ∀ t : TimedUTXO, some t ∈ allBytes → ¬ t.timestamp ≤ now - bound) ∧
    ∀ ids, NewRewardsImportTx true allBytes now bound = .ok ids →
      ∀ i, i ∈ ids ↔ ∃ t : TimedUTXO, some t ∈ allBytes ∧
        t.timestamp ≤ now - bound ∧ t.utxo.utxoID = i := by
  have hsub := u64sub_eq now bound hb hn
  constructor
  · rw [← hsub]
    simp only [NewRewardsImportTx, Bool.true_eq_false, if_false]
    by_cases he : (rewardsImportUTXOs now bound allBytes).isEmpty
    · rw [if_pos he]
      simp only [List.isEmpty_iff] at he
      exact ⟨fun _ => (rewardsImportUTXOs_eq_nil now bound allBytes).1 he,
        fun _ => rfl⟩
    · rw [if_neg he]
      simp only [List.isEmpty_iff] at he
      constructor
      · intro h
        exact Except.noConfusion h
      · intro h
        exact absurd ((rewardsImportUTXOs_eq_nil now bound allBytes).2 h) he
  · intro ids h i
    rw [← hsub]
    simp only [NewRewardsImportTx, Bool.true_eq_false, if_false] at h
    by_cases he : (rewardsImportUTXOs now bound allBytes).isEmpty
    · rw [if_pos he] at h
      exact Except.noConfusion h
    · rw [if_neg he] at h
      injection h with h2
      rw [← h2, sortIDs]
      rw [List.mem_insertionSort]
      simp only [List.mem_map]
      constructor
      · rintro ⟨u, hu, rfl⟩
        obtain ⟨t, ht, hts, hut⟩ :=
          (mem_rewardsImportUTXOs now bound allBytes u).1 hu
        exact ⟨t, ht, hts, by rw [hut]⟩
      · rintro ⟨t, ht, hts, hut⟩
        exact ⟨t.utxo,
          (mem_rewardsImportUTXOs now bound allBytes t.utxo).2 ⟨t, ht, hts, rfl⟩,
          hut⟩

/-- Witness for C8: three byte strings, one decoded-and-old UTXO (id `7`,
timestamp `50`), one failing to decode, one decoded but too recent
(timestamp `200`), at `now = 100`, `bound = 10`. -/
theorem rewardsImportTx_spec_witness :
    (10 : Nat) ≤ 100 ∧ (100 : Nat) < 2 ^ 64 ∧
    NewRewardsImportTx true
        [some ⟨⟨7, .transfer⟩, 50⟩, none, some ⟨⟨3, .transfer⟩, 200⟩]
        100 10 = .ok [7] ∧
    ∀ i, i ∈ ([7] : List Nat) ↔ ∃ t : TimedUTXO,
      some t ∈ [some ⟨⟨7, .transfer⟩, 50⟩, none,
        some ⟨⟨3, .transfer⟩, 200⟩] ∧
      t.timestamp ≤ 100 - 10 ∧ t.utxo.utxoID = i :=
  ⟨by decide, by decide, rfl,
   (rewardsImportTx_spec
      [some ⟨⟨7, .transfer⟩, 50⟩, none, some ⟨⟨3, .transfer⟩, 200⟩]
      100 10 (by decide) (by decide)).2 [7] rfl⟩

/-! ## Minimum-list toolkit for claims C3 and C6 -/

theorem minList_cons (a : Nat) (l : List Nat) (i : Nat) :
    minList (a :: l) i = min a (minList l i) := rfl

theorem minList_append (a b : List Nat) (i : Nat) :
    minList (a ++ b) i = minList a (minList b i) := by
  simp [minList, List.foldr_append]

theorem minList_min (l : List Nat) (x i : Nat) :
    minList l (min x i) = min x (minList l i) := by
  induction l with
  | nil => rfl
  | cons a t ih => rw [minList_cons, ih, minList_cons, min_left_comm]

theorem minList_swap (a b : List Nat) (i : Nat) :
    minList a (minList b i) = minList b (minList a i) := by
  induction a with
  | nil => rfl
  | cons x t ih => rw [minList_cons, ih, ← minList_min, minList_cons]

theorem minList_le_init (l : List Nat) (i : Nat) : minList l i ≤ i := by
  induction l with
  | nil => exact le_refl i
  | cons a t ih => exact le_trans (min_le_right a (minList t i)) ih

theorem minList_le_mem (l : List Nat) (i : Nat) {x : Nat} (hx : x ∈ l) :
    minList l i ≤ x := by
  induction l with
  | nil => exact absurd hx (List.not_mem_nil x)
  | cons a t ih =>
    rcases List.mem_cons.1 hx with rfl | hx2
    · exact min_le_left x (minList t i)
    · exact le_trans (min_le_right a (minList t i)) (ih hx2)

theorem minList_mem_or (l : List Nat) (i : Nat) :
    minList l i = i ∨ minList l i ∈ l := by
  induction l with
  | nil => exact Or.inl rfl
  | cons a t ih =>
    rw [minList_cons]
    rcases le_total a (minList t i) with h | h
    · refine Or.inr ?_
      rw [min_eq_left h]
      exact List.mem_cons_self a t
    · rcases ih with h2 | h2
      · exact Or.inl (by rw [min_eq_right h, h2])
      · exact Or.inr (List.mem_cons_of_mem a (by rw [min_eq_right h]; exact h2))

theorem minList_eq_top_iff (l : List Nat) (M : Nat)
    (h : ∀ x ∈ l, x < M) : minList l M = M ↔ l = [] := by
  constructor
  · intro hm
    cases l with
    | nil => rfl
    | cons a t =>
      have h1 : minList (a :: t) M ≤ a := minList_le_mem _ _ (List.mem_cons_self a t)
      have h2 : a < M := h a (List.mem_cons_self a t)
      omega
  · intro hl
    rw [hl]
    rfl

/-- Keys determine entries in a list with nodup keys. -/
theorem nodup_keys_eq {α β : Type} (l : List (α × β))
    (h : (l.map Prod.fst).Nodup) :
    ∀ a ∈ l, ∀ b ∈ l, a.1 = b.1 → a = b := by
  induction l with
  | nil => intro a ha; exact absurd ha (List.not_mem_nil a)
  | cons x t ih =>
    simp only [List.map_cons, List.nodup_cons] at h
    obtain ⟨hx, ht⟩ := h
    intro a ha b hb heq
    rcases List.mem_cons.1 ha with rfl | ha2
    · rcases List.mem_cons.1 hb with rfl | hb2
      · rfl
      · exact absurd (heq ▸ List.mem_map_of_mem Prod.fst hb2) hx
    · rcases List.mem_cons.1 hb with rfl | hb2
      · exact absurd (heq ▸ List.mem_map_of_mem Prod.fst ha2) hx
      · exact ih ht a ha2 b hb2 heq

theorem sortIDs_sortIDs_append (a b : List Nat) :
    sortIDs (sortIDs a ++ b) = sortIDs (a ++ b) := by
  have hperm : List.Perm (sortIDs (sortIDs a ++ b)) (sortIDs (a ++ b)) :=
    (List.perm_insertionSort _ _).trans
      (((List.perm_insertionSort _ a).append_right b).trans
        (List.perm_insertionSort _ _).symm)
  exact List.eq_of_perm_of_sorted hperm
    (List.sorted_insertionSort _ _) (List.sorted_insertionSort _ _)

/-! ## Component lemmas for the next-to-unlock composition -/

/-- The fold lowering the unlock time computes the minimum end time of the
added-and-surviving deposits together with the initial accumulator. -/
theorem unlockFold_eq (mods : List (Nat × DepositDiff)) (removed : List Nat)
    (t : Nat) :
    unlockFold mods removed t =
      minList ((addedCand mods removed).map (fun q => q.2.endTime)) t := by
  induction mods generalizing t with
  | nil => rfl
  | cons q rest ih =>
    by_cases hq : q.2.added = true ∧ q.1 ∉ removed
    · have hstep : (if q.2.added = true ∧ q.2.deposit.endTime < t ∧
          q.1 ∉ removed then q.2.deposit.endTime else t) =
          min q.2.deposit.endTime t := by
        by_cases hlt : q.2.deposit.endTime < t
        · rw [if_pos ⟨hq.1, hlt, hq.2⟩]
          exact (min_eq_left hlt.le).symm
        · rw [if_neg (fun hh => hlt hh.2.1)]
          exact (min_eq_right (le_of_not_lt hlt)).symm
      have hAC : addedCand (q :: rest) removed =
          (q.1, q.2.deposit) :: addedCand rest removed := by
        simp [addedCand, addedOf, List.filter_cons, hq.1, hq.2]
      rw [unlockFold, List.foldl_cons, hstep]
      have hfold : List.foldl
          (fun acc (p : Nat × DepositDiff) =>
            if p.2.added = true ∧ p.2.deposit.endTime < acc ∧ p.1 ∉ removed
            then p.2.deposit.endTime else acc)
          (min q.2.deposit.endTime t) rest =
          unlockFold rest removed (min q.2.deposit.endTime t) := rfl
      rw [hfold, ih, hAC, List.map_cons, minList_cons, minList_min]
    · have hstep : (if q.2.added = true ∧ q.2.deposit.endTime < t ∧
          q.1 ∉ removed then q.2.deposit.endTime else t) = t := by
        rw [if_neg]
        rintro ⟨h1, _, h3⟩
        exact hq ⟨h1, h3⟩
      have hAC : addedCand (q :: rest) removed = addedCand rest removed := by
        by_cases h1 : q.2.added = true
        · have hrem : q.1 ∈ removed := by
            by_contra hh
            exact hq ⟨h1, hh⟩
          simp [addedCand, addedOf, List.filter_cons, h1, hrem]
        · simp [addedCand, addedOf, List.filter_cons, h1]
      rw [unlockFold, List.foldl_cons, hstep]
      have hfold : List.foldl
          (fun acc (p : Nat × DepositDiff) =>
            if p.2.added = true ∧ p.2.deposit.endTime < acc ∧ p.1 ∉ removed
            then p.2.deposit.endTime else acc) t rest =
          unlockFold rest removed t := rfl
      rw [hfold, ih, hAC]

/-- The added-at-minimum loop collects exactly the keys of the
added-and-surviving deposits whose end time is `t`. -/
theorem addedAtMinIDs_eq (mods : List (Nat × DepositDiff))
    (removed : List Nat) (t : Nat) :
    addedAtMinIDs mods removed t =
      ((addedCand mods removed).filter
        (fun q => decide (q.2.endTime = t))).map Prod.fst := by
  induction mods with
  | nil => rfl
  | cons q rest ih =>
    by_cases h1 : q.2.added = true
    · by_cases h2 : q.1 ∈ removed
      · have e1 : addedAtMinIDs (q :: rest) removed t =
            addedAtMinIDs rest removed t := by
          unfold addedAtMinIDs
          rw [List.filter_cons, if_neg (by simp [h2])]
        have e2 : addedCand (q :: rest) removed = addedCand rest removed := by
          simp [addedCand, addedOf, List.filter_cons, h1, h2]
        rw [e1, e2, ih]
      · have e2 : addedCand (q :: rest) removed =
            (q.1, q.2.deposit) :: addedCand rest removed := by
          simp [addedCand, addedOf, List.filter_cons, h1, h2]
        by_cases h3 : q.2.deposit.endTime = t
        · have e1 : addedAtMinIDs (q :: rest) removed t =
              q.1 :: addedAtMinIDs rest removed t := by
            unfold addedAtMinIDs
            rw [List.filter_cons, if_pos (by simp [h1, h2, h3]), List.map_cons]
          have e3 : ((q.1, q.2.deposit) :: addedCand rest removed).filter
              (fun q => decide (q.2.endTime = t)) =
              (q.1, q.2.deposit) ::
                (addedCand rest removed).filter
                  (fun q => decide (q.2.endTime = t)) := by
            rw [List.filter_cons, if_pos (by simp [Deposit.endTime] at h3 ⊢; exact h3)]
          rw [e1, e2, e3, List.map_cons, ih]
        · have e1 : addedAtMinIDs (q :: rest) removed t =
              addedAtMinIDs rest removed t := by
            unfold addedAtMinIDs
            rw [List.filter_cons, if_neg (by simp [h3])]
          have e3 : ((q.1, q.2.deposit) :: addedCand rest removed).filter
              (fun q => decide (q.2.endTime = t)) =
              (addedCand rest removed).filter
                (fun q => decide (q.2.endTime = t)) := by
            rw [List.filter_cons, if_neg (by simp [Deposit.endTime] at h3 ⊢; exact h3)]
          rw [e1, e2, e3, ih]
    · have e1 : addedAtMinIDs (q :: rest) removed t =
          addedAtMinIDs rest removed t := by
        unfold addedAtMinIDs
        rw [List.filter_cons, if_neg (by simp [h1])]
      have e2 : addedCand (q :: rest) removed = addedCand rest removed := by
        simp [addedCand, addedOf, List.filter_cons, h1]
      rw [e1, e2, ih]

/-- With nodup keys and flags set by the three deposit setters only, a
deposit added by the diff is never also marked removed. -/
theorem added_not_removed (mods : List (Nat × DepositDiff))
    (hnodup : (mods.map Prod.fst).Nodup)
    (hflags : ∀ q ∈ mods, ¬(q.2.added = true ∧ q.2.removed = true)) :
    ∀ q ∈ addedOf mods, q.1 ∉ removedIDsOf mods := by
  intro q hq hmem
  simp only [addedOf, List.mem_map, List.mem_filter] at hq
  obtain ⟨a, ⟨ha, haAdd⟩, rfl⟩ := hq
  simp only [removedIDsOf, List.mem_map, List.mem_filter] at hmem
  obtain ⟨e, ⟨he, heRem⟩, heq⟩ := hmem
  have hae : e = a := nodup_keys_eq mods hnodup e he a ha heq
  rw [hae] at heRem
  exact hflags a ha ⟨haAdd, heRem⟩

/-- Decomposition of the effective candidate set: filtering the effective
deposits by the caller's excluded set yields the parent candidates
(filtered by excluded plus diff-removed) followed by the
added-and-surviving deposits. -/
theorem effective_candidates (pdeps : List (Nat × Deposit))
    (mods : List (Nat × DepositDiff)) (excluded : List Nat)
    (hnodup : (mods.map Prod.fst).Nodup)
    (hflags : ∀ q ∈ mods, ¬(q.2.added = true ∧ q.2.removed = true)) :
    (pdeps.filter (fun q => decide (q.1 ∉ removedIDsOf mods)) ++
        addedOf mods).filter (fun q => decide (q.1 ∉ excluded)) =
      pdeps.filter
        (fun q => decide (q.1 ∉ excluded ++ removedIDsOf mods)) ++
        addedCand mods (excluded ++ removedIDsOf mods) := by
  rw [List.filter_append]
  congr 1
  · rw [List.filter_filter]
    apply List.filter_congr
    intro q _
    by_cases h1 : q.1 ∈ excluded <;> by_cases h2 : q.1 ∈ removedIDsOf mods <;>
      simp [h1, h2, List.mem_append]
  · rw [addedCand]
    apply List.filter_congr
    intro q hq
    have hnr : q.1 ∉ removedIDsOf mods := added_not_removed mods hnodup hflags q hq
    by_cases h1 : q.1 ∈ excluded <;> simp [h1, hnr, List.mem_append]

/-! ## The next-to-unlock composition -/

/-- The composed `GetNextToUnlockDepositIDsAndTime` of a diff equals the
specification applied to the effective deposit set. -/
theorem nextToUnlock_eq_spec (d : Diff) (p : ParentState) (excluded : List Nat)
    (hp : d.stateVersions d.parentID = some p)
    (hnodup : (d.caminoDiff.modifiedDeposits.map Prod.fst).Nodup)
    (hflags : ∀ q ∈ d.caminoDiff.modifiedDeposits,
      ¬(q.2.added = true ∧ q.2.removed = true))
    (hpmax : ∀ q ∈ p.deposits, q.2.endTime < maxTime)
    (hdmax : ∀ q ∈ d.caminoDiff.modifiedDeposits,
      q.2.deposit.endTime < maxTime) :
    (d.GetNextToUnlockDepositIDsAndTime excluded).1 =
      specNextToUnlock (effectiveDeposits d p) excluded := by
  simp only [Diff.GetNextToUnlockDepositIDsAndTime, hp]
  rw [apply_ite Prod.fst]
  dsimp only
  set mods := d.caminoDiff.modifiedDeposits with hmodsDef
  set R := excluded ++ d.removedDepositIDs with hRDef
  set PC := p.deposits.filter (fun q => decide (q.1 ∉ R)) with hPCDef
  set AC := addedCand mods R with hACDef
  have hEC : (effectiveDeposits d p).filter
      (fun q => decide (q.1 ∉ excluded)) = PC ++ AC :=
    effective_candidates p.deposits mods excluded hnodup hflags
  have hPR2 : (baseNextToUnlock p.deposits R).2 =
      minList (PC.map (fun q => q.2.endTime)) maxTime := rfl
  have hPR1 : (baseNextToUnlock p.deposits R).1 =
      sortIDs ((PC.filter (fun q => decide (q.2.endTime =
        minList (PC.map (fun q => q.2.endTime)) maxTime))).map Prod.fst) := rfl
  have hspec : specNextToUnlock (effectiveDeposits d p) excluded =
      (if (PC ++ AC).isEmpty then (.error .notFound : Except Err (List Nat × Nat))
       else .ok (sortIDs (((PC ++ AC).filter (fun q => decide (q.2.endTime =
           minList ((PC ++ AC).map (fun q => q.2.endTime)) maxTime))).map
             Prod.fst),
         minList ((PC ++ AC).map (fun q => q.2.endTime)) maxTime)) := by
    simp only [specNextToUnlock, hEC]
  have hNT : unlockFold mods R (baseNextToUnlock p.deposits R).2 =
      minList ((PC ++ AC).map (fun q => q.2.endTime)) maxTime := by
    rw [unlockFold_eq, hPR2, minList_swap, ← minList_append, ← List.map_append]
  have hends : ∀ x ∈ (PC ++ AC).map (fun q => q.2.endTime), x < maxTime := by
    intro x hx
    rcases List.mem_map.1 hx with ⟨q, hq, rfl⟩
    rcases List.mem_append.1 hq with h | h
    · exact hpmax q (List.mem_of_mem_filter h)
    · have h2 : q ∈ addedOf mods := List.mem_of_mem_filter h
      simp only [addedOf, List.mem_map, List.mem_filter] at h2
      obtain ⟨e, ⟨he, _⟩, rfl⟩ := h2
      exact hdmax e he
  rw [hspec, hNT]
  by_cases hTop :
      minList ((PC ++ AC).map (fun q => q.2.endTime)) maxTime = maxTime
  · have hnil : PC ++ AC = [] :=
      List.map_eq_nil_iff.1 ((minList_eq_top_iff _ _ hends).1 hTop)
    rw [if_pos hTop, if_pos (List.isEmpty_iff.2 hnil)]
  · have hne : ¬((PC ++ AC).isEmpty = true) := by
      intro hh
      exact hTop ((minList_eq_top_iff _ _ hends).2
        (by rw [List.isEmpty_iff.1 hh, List.map_nil]))
    rw [if_neg hTop, if_neg hne]
    have hNTle : minList ((PC ++ AC).map (fun q => q.2.endTime)) maxTime ≤
        (baseNextToUnlock p.deposits R).2 := by
      rw [← hNT, unlockFold_eq]
      exact minList_le_init _ _
    have hACm : addedAtMinIDs mods R
        (minList ((PC ++ AC).map (fun q => q.2.endTime)) maxTime) =
        ((AC.filter (fun q => decide (q.2.endTime =
          minList ((PC ++ AC).map (fun q => q.2.endTime)) maxTime))).map
            Prod.fst) := addedAtMinIDs_eq mods R _
    by_cases hple : (baseNextToUnlock p.deposits R).2 ≤
        minList ((PC ++ AC).map (fun q => q.2.endTime)) maxTime
    · have hPeq : (baseNextToUnlock p.deposits R).2 =
          minList ((PC ++ AC).map (fun q => q.2.endTime)) maxTime :=
        le_antisymm hple hNTle
      have hPCmin : minList (PC.map (fun q => q.2.endTime)) maxTime =
          minList ((PC ++ AC).map (fun q => q.2.endTime)) maxTime :=
        hPR2.symm.trans hPeq
      rw [if_pos hple, hACm, hPR1, hPCmin, List.filter_append,
        List.map_append Prod.fst]
      by_cases hE : ((AC.filter (fun q => decide (q.2.endTime =
          minList ((PC ++ AC).map (fun q => q.2.endTime)) maxTime))).map
            Prod.fst).isEmpty
      · rw [if_pos hE, List.isEmpty_iff.1 hE, List.append_nil, List.append_nil]
      · rw [if_neg hE, sortIDs_sortIDs_append]
    · have hlt : minList ((PC ++ AC).map (fun q => q.2.endTime)) maxTime <
          (baseNextToUnlock p.deposits R).2 := lt_of_not_ge hple
      have hPCm : PC.filter (fun q => decide (q.2.endTime =
          minList ((PC ++ AC).map (fun q => q.2.endTime)) maxTime)) = [] := by
        rw [List.filter_eq_nil_iff]
        intro q hq
        simp only [decide_eq_true_eq]
        intro hEq
        have h1 : (baseNextToUnlock p.deposits R).2 ≤ q.2.endTime := by
          rw [hPR2]
          exact minList_le_mem _ _
            (List.mem_map_of_mem (fun q => q.2.endTime) hq)
        omega
      have hMAC : minList (AC.map (fun q => q.2.endTime))
          (baseNextToUnlock p.deposits R).2 =
          minList ((PC ++ AC).map (fun q => q.2.endTime)) maxTime :=
        (unlockFold_eq mods R _).symm.trans hNT
      have hNe : ¬ (addedAtMinIDs mods R
          (minList ((PC ++ AC).map (fun q => q.2.endTime)) maxTime)).isEmpty
          = true := by
        rcases minList_mem_or (AC.map (fun q => q.2.endTime))
            (baseNextToUnlock p.deposits R).2 with h | h
        · rw [hMAC] at h
          omega
        · rw [hMAC] at h
          obtain ⟨q, hqAC, hqEnd⟩ := List.mem_map.1 h
          intro hEmpty
          have h0 : addedAtMinIDs mods R
              (minList ((PC ++ AC).map (fun q => q.2.endTime)) maxTime) = [] :=
            List.isEmpty_iff.1 hEmpty
          rw [hACm, List.map_eq_nil_iff, List.filter_eq_nil_iff] at h0
          exact h0 q hqAC (by simp [hqEnd])
      rw [if_neg hple, if_neg hNe, hACm]
      rw [List.filter_append, List.map_append Prod.fst, hPCm, List.map_nil,
        List.nil_append]

/-! ## Claims C3 and C6 -/

/-- C3: over a diff with resolvable parent,
`GetNextToUnlockDepositIDsAndTime(excluded)` answers exactly the
specification applied to the effective deposit set (parent deposits plus
diff-added, minus diff-removed and excluded): the ascending deposit ids
tied at the minimum end time, with that minimum, and `NotFound` when the
effective set is exhausted. -/
theorem nextToUnlockIDsAndTime_composes (d : Diff) (p : ParentState)
    (excluded : List Nat)
    (hp : d.stateVersions d.parentID = some p)
    (hnodup : (d.caminoDiff.modifiedDeposits.map Prod.fst).Nodup)
    (hflags : ∀ q ∈ d.caminoDiff.modifiedDeposits,
      ¬(q.2.added = true ∧ q.2.removed = true))
    (hpmax : ∀ q ∈ p.deposits, q.2.endTime < maxTime)
    (hdmax : ∀ q ∈ d.caminoDiff.modifiedDeposits,
      q.2.deposit.endTime < maxTime) :
    (d.GetNextToUnlockDepositIDsAndTime excluded).1 =
      specNextToUnlock (effectiveDeposits d p) excluded :=
  nextToUnlock_eq_spec d p excluded hp hnodup hflags hpmax hdmax

/-- Witness for C3: spec scenario S6.  Parent deposit `1` ends at `1000`;
the diff `dAddW` adds deposit `2` ending at `900`, so the answer is
`([2], 900)`; with deposit `2` tombstoned instead (`dTombYW`), the answer
is `([1], 1000)`. -/
theorem nextToUnlockIDsAndTime_composes_witness :
    dAddW.stateVersions dAddW.parentID = some pW ∧
    (dAddW.caminoDiff.modifiedDeposits.map Prod.fst).Nodup ∧
    (∀ q ∈ dAddW.caminoDiff.modifiedDeposits,
      ¬(q.2.added = true ∧ q.2.removed = true)) ∧
    (∀ q ∈ pW.deposits, q.2.endTime < maxTime) ∧
    (∀ q ∈ dAddW.caminoDiff.modifiedDeposits,
      q.2.deposit.endTime < maxTime) ∧
    (dAddW.GetNextToUnlockDepositIDsAndTime []).1 =
      specNextToUnlock (effectiveDeposits dAddW pW) [] ∧
    (dAddW.GetNextToUnlockDepositIDsAndTime []).1 = .ok ([2], 900) ∧
    (dTombYW.GetNextToUnlockDepositIDsAndTime []).1 = .ok ([1], 1000) :=
  ⟨rfl, by decide, by decide, by decide, by decide,
   nextToUnlockIDsAndTime_composes dAddW pW [] rfl (by decide) (by decide)
     (by decide) (by decide),
   rfl, rfl⟩

/-- C6: over a diff with resolvable parent,
`GetNextToUnlockDepositIDsAndTime(excluded)` answers `NotFound` exactly
when every deposit of the effective set (parent deposits plus diff-added,
minus diff-removed) is excluded. -/
theorem nextToUnlock_notFound_iff (d : Diff) (p : ParentState)
    (excluded : List Nat)
    (hp : d.stateVersions d.parentID = some p)
    (hnodup : (d.caminoDiff.modifiedDeposits.map Prod.fst).Nodup)
    (hflags : ∀ q ∈ d.caminoDiff.modifiedDeposits,
      ¬(q.2.added = true ∧ q.2.removed = true))
    (hpmax : ∀ q ∈ p.deposits, q.2.endTime < maxTime)
    (hdmax : ∀ q ∈ d.caminoDiff.modifiedDeposits,
      q.2.deposit.endTime < maxTime) :
    (d.GetNextToUnlockDepositIDsAndTime excluded).1 = .error .notFound ↔
      ∀ q ∈ effectiveDeposits d p, q.1 ∈ excluded := by
  rw [nextToUnlock_eq_spec d p excluded hp hnodup hflags hpmax hdmax]
  simp only [specNextToUnlock]
  by_cases hc : ((effectiveDeposits d p).filter
      (fun q => decide (q.1 ∉ excluded))).isEmpty = true
  · rw [if_pos hc]
    constructor
    · intro _
      have hnil := List.isEmpty_iff.1 hc
      rw [List.filter_eq_nil_iff] at hnil
      intro q hq
      have h2 := hnil q hq
      simp only [decide_eq_true_eq] at h2
      exact not_not.1 h2
    · intro _
      rfl
  · rw [if_neg hc]
    constructor
    · intro h
      exact Except.noConfusion h
    · intro h
      exfalso
      apply hc
      apply List.isEmpty_iff.2
      rw [List.filter_eq_nil_iff]
      intro q hq
      simp only [decide_eq_true_eq]
      exact fun hn => hn (h q hq)

/-- Witness for C6 at the diff `dRemoveW`, which removes the parent's only
deposit: with nothing excluded the effective set is empty and the call
answers `NotFound`. -/
theorem nextToUnlock_notFound_iff_witness :
    dRemoveW.stateVersions dRemoveW.parentID = some pW ∧
    (dRemoveW.caminoDiff.modifiedDeposits.map Prod.fst).Nodup ∧
    (∀ q ∈ dRemoveW.caminoDiff.modifiedDeposits,
      ¬(q.2.added = true ∧ q.2.removed = true)) ∧
    (∀ q ∈ pW.deposits, q.2.endTime < maxTime) ∧
    (∀ q ∈ dRemoveW.caminoDiff.modifiedDeposits,
      q.2.deposit.endTime < maxTime) ∧
    ((dRemoveW.GetNextToUnlockDepositIDsAndTime []).1 = .error .notFound ↔
      ∀ q ∈ effectiveDeposits dRemoveW pW, q.1 ∈ ([] : List Nat)) ∧
    (dRemoveW.GetNextToUnlockDepositIDsAndTime []).1 = .error .notFound :=
  ⟨rfl, by decide, by decide, by decide, by decide,
   nextToUnlock_notFound_iff dRemoveW pW [] rfl (by decide) (by decide)
     (by decide) (by decide),
   rfl⟩

end Camino
